import Mathlib

/-!
Shallow embedding of the MDP grid-world solver (config.rs, mdp_model.rs,
robustness.rs, transition_matrices.rs).  Rust `f64`/`f32` values are
modelled as exact rationals (`ℚ`); Rust `HashMap`s are modelled either as
total functions (tables whose full key set is always populated before any
read) or as association lists in insertion order.  Where an observable
behaviour depends on a `HashMap`'s run-dependent iteration order, the
embedding takes that order as an explicit parameter.
-/

namespace Robotica

abbrev Estado := String
abbrev Accion := String

/-- config.rs: number of rows in the map. -/
def FILAS_MAPA : Nat := 6

/-- config.rs: number of columns in the map. -/
def COLUMNAS_MAPA : Nat := 8

/-- config.rs: label of the goal state. -/
def ESTADO_META : Estado := "M"

/-- config.rs: danger ("pit") states. -/
def ESTADOS_PELIGRO : List Estado := ["P1", "P2", "P3", "P4"]

/-- config.rs: obstacle states. -/
def OBSTACULOS : List Estado :=
  ["O1", "O2", "O3", "O4", "O5", "O6", "O7", "O8", "O9", "O10"]

/-- config.rs: the 6×8 map layout. -/
def MAPA_ESTADOS : List (List Estado) :=
  [["S0", "S1", "P1", "O1", "S3", "O2", "S4", "S5"],
   ["O3", "S6", "S7", "S8", "S9", "S10", "S11", "O4"],
   ["S12", "P2", "S14", "O5", "S15", "P3", "S17", "S18"],
   ["S19", "S20", "S21", "S22", "M", "S24", "S25", "O6"],
   ["S26", "O7", "O8", "S27", "S28", "S29", "P4", "S31"],
   ["S32", "O9", "S33", "S34", "O10", "S35", "S36", "S37"]]

/-- Row-major list of all cell labels, the order in which both solver loops
visit the map (`for fila in MAPA_ESTADOS { for estado in fila { .. } }`). -/
def listaEstados : List Estado := MAPA_ESTADOS.flatten

/-- config.rs `obtener_recompensas`: goal +10, danger −0.5, otherwise −0.1.
The source materialises this as a `HashMap` over every cell of the map; we
embed the underlying assignment as a function on labels. -/
def recompensa (s : Estado) : ℚ :=
  if s = ESTADO_META then 10
  else if s ∈ ESTADOS_PELIGRO then -(1/2)
  else -(1/10)

/-- config.rs `acciones()`: the four cardinal actions, in source order. -/
def acciones : List Accion := ["N", "S", "E", "O"]

/-- config.rs `prob_transicion()`: the default 0.8 / 0.1 / 0.1 model, as an
association list (outer key: action, inner: effective direction ↦ probability),
entries in the source's insertion order. -/
def prob_transicion : List (Accion × List (Accion × ℚ)) :=
  [("N", [("N", 4/5), ("E", 1/10), ("O", 1/10)]),
   ("S", [("S", 4/5), ("E", 1/10), ("O", 1/10)]),
   ("E", [("E", 4/5), ("N", 1/10), ("S", 1/10)]),
   ("O", [("O", 4/5), ("N", 1/10), ("S", 1/10)])]

/-- mdp_model.rs `obtener_posicion` search: first row containing the label,
with its column.  Helper for the nested `for (fila, ..) / for (col, ..)` scan. -/
def buscarPosicion : List (List Estado) → Nat → Estado → Option (Nat × Nat)
  | [], _, _ => none
  | f :: resto, i, e =>
    match f.findIdx? (fun x => x == e) with
    | some j => some (i, j)
    | none => buscarPosicion resto (i + 1) e

instance {ε α : Type} [DecidableEq ε] [DecidableEq α] : DecidableEq (Except ε α) := by
  intro a b
  cases a <;> cases b
  case error.error x y =>
    exact decidable_of_iff (x = y) (by simp)
  case ok.ok x y =>
    exact decidable_of_iff (x = y) (by simp)
  all_goals exact isFalse (by simp)

/-- mdp_model.rs `obtener_posicion`: coordinates of a label, or the source's
error message if the label is not on the map. -/
def obtener_posicion (estado : Estado) : Except String (Nat × Nat) :=
  match buscarPosicion MAPA_ESTADOS 0 estado with
  | some p => .ok p
  | none => .error ("Estado '" ++ estado ++ "' no encontrado en el mapa")

/-- mdp_model.rs `obtener_estado`: the label at (fila, col) when in bounds and
not an obstacle; `none` otherwise. -/
def obtener_estado (fila col : ℤ) : Option Estado :=
  if 0 ≤ fila ∧ fila < (FILAS_MAPA : ℤ) ∧ 0 ≤ col ∧ col < (COLUMNAS_MAPA : ℤ) then
    let estado := (MAPA_ESTADOS.getD fila.toNat []).getD col.toNat ""
    if estado ∈ OBSTACULOS then none else some estado
  else none

/-- mdp_model.rs `mover`: one-cell displacement for each cardinal action,
no displacement for any other string. -/
def mover (fila col : Nat) (accion : Accion) : ℤ × ℤ :=
  match accion with
  | "N" => ((fila : ℤ) - 1, (col : ℤ))
  | "S" => ((fila : ℤ) + 1, (col : ℤ))
  | "E" => ((fila : ℤ), (col : ℤ) + 1)
  | "O" => ((fila : ℤ), (col : ℤ) - 1)
  | _ => ((fila : ℤ), (col : ℤ))

/-- The destination cell used by both the solver and the matrix builder: move
one step in effective direction `d` from `s` at (f, c); out of bounds or an
obstacle resolves to `s` itself. -/
def destino (s : Estado) (f c : Nat) (d : Accion) : Estado :=
  match obtener_estado (mover f c d).1 (mover f c d).2 with
  | some e => e
  | none => s

/-- robustness.rs `ARR_TPL_F64X3_MODELOS_RUIDO`: the catalogue of noise
triples (left-deviation, intended-direction, right-deviation). -/
def ARR_TPL_F64X3_MODELOS_RUIDO : List (ℚ × ℚ × ℚ) :=
  [(1/10, 4/5, 1/10), (1/20, 9/10, 1/20), (3/20, 7/10, 3/20), (1/4, 1/2, 1/4)]

/-- robustness.rs `construir_modelo_ruido`: per-action transition rows using
the fixed left/right convention (N, S: left = O, right = E; E, O: left = N,
right = S), one outer entry per action in the source's loop order. -/
def construir_modelo_ruido (izqProb centroProb derProb : ℚ) :
    List (Accion × List (Accion × ℚ)) :=
  [("N", [("N", centroProb), ("E", derProb), ("O", izqProb)]),
   ("S", [("S", centroProb), ("E", derProb), ("O", izqProb)]),
   ("E", [("E", centroProb), ("N", izqProb), ("S", derProb)]),
   ("O", [("O", centroProb), ("N", izqProb), ("S", derProb)])]

/-- Sum of an action's row in an association-list transition model (the sum
of the probabilities over that action's effective directions). -/
def sumaFila (m : List (Accion × List (Accion × ℚ))) (a : Accion) : ℚ :=
  (((m.lookup a).getD []).map Prod.snd).sum

/-! ### Q-value iteration (mdp_model.rs `q_value_iteration`)

The Q-table `HashMap<String, HashMap<String, f64>>` is embedded as a total
function `Estado → Accion → ℚ`: the source populates every (non-obstacle
state, action) key before any read, and every read during the sweeps is of
such a key, so the map behaves as a total function on the keys that matter.
Obstacle rows, absent from the source's map, are never read or written by
the embedded loops either. -/

abbrev QTable := Estado → Accion → ℚ

/-- A transition model as consumed by the solver: action ↦ list of
(effective direction, probability) outcomes. -/
abbrev Modelo := Accion → List (Accion × ℚ)

/-- View of an association-list model (outer `HashMap`) as a `Modelo`.  The
source's `.unwrap()` on the outer lookup is total here: every action the
solver iterates is a key of every model it is given. -/
def modeloFn (m : List (Accion × List (Accion × ℚ))) : Modelo :=
  fun a => (m.lookup a).getD []

/-- mdp_model.rs lines 88-103: the default model converted to owned keys. -/
def modelo_base : Modelo := modeloFn prob_transicion

/-- Modelled from the spec: `UMBRAL_CONVERGENCIA` is imported from config.rs
by mdp_model.rs but its definition is not among the sources here; the spec
gives ε = 0.001 as the example default convergence threshold (§6). -/
def UMBRAL_CONVERGENCIA : ℚ := 1/1000

/-- A single `q_nuevo.insert(estado, accion, v)`. -/
def actualizar (t : QTable) (s : Estado) (a : Accion) (v : ℚ) : QTable :=
  fun s' a' => if s' = s ∧ a' = a then v else t s' a'

/-- The source's `values().fold(f64::NEG_INFINITY, max)`: the maximum of a
row's values.  The row always carries the four actions, so the fold over a
nonempty list is the list maximum; the `[]` case (the source's untouched
`NEG_INFINITY`, reachable only for an empty row) is given the same fallback
0.0 the source uses for a missing row. -/
def fold_max_ni : List ℚ → ℚ
  | [] => 0
  | x :: xs => xs.foldl max x

/-- `max_a' Q(s, a')` as the source computes it (lines 157-165). -/
def max_q_destino (q : QTable) (s : Estado) : ℚ :=
  fold_max_ni (acciones.map (q s))

/-- Bellman backup for one (state, action): lines 147-171, reading only the
previous sweep's table `q`. -/
def q_final (lam : ℚ) (m : Modelo) (q : QTable) (s : Estado) (f c : Nat)
    (a : Accion) : ℚ :=
  recompensa s +
    lam * ((m a).foldl
      (fun acc dp => acc + dp.2 * max_q_destino q (destino s f c dp.1)) 0)

/-- Body of the per-state part of one sweep (lines 112-187): the accumulator
carries (q_nuevo, delta); reads come from the fixed previous table `qold`. -/
def paso_estado (lam : ℚ) (m : Modelo) (qold : QTable) (acc : QTable × ℚ)
    (estado : Estado) : QTable × ℚ :=
  if estado ∈ OBSTACULOS then acc
  else if estado = ESTADO_META then
    (acciones.foldl (fun t a => actualizar t estado a (recompensa estado)) acc.1,
     acc.2)
  else
    match obtener_posicion estado with
    | .error _ => acc
    | .ok (f, c) =>
      acciones.foldl (fun ac a =>
        let qf := q_final lam m qold estado f c a
        (actualizar ac.1 estado a qf, max ac.2 |qold estado a - qf|)) acc

/-- One full sweep (lines 108-187): `q_nuevo` starts as a clone of the old
table, delta starts at 0, and the states are visited in row-major order. -/
def barrido (lam : ℚ) (m : Modelo) (q : QTable) : QTable × ℚ :=
  listaEstados.foldl (paso_estado lam m q) (q, 0)

/-- The solver loop (lines 106-195) with an explicit fuel bound: the source
loops unboundedly; `none` means the loop was still running after `fuel`
sweeps.  On `delta ≤ ε` the source `break`s and keeps `q_valores` — the table
from *before* the final sweep (the final `q_nuevo` is discarded). -/
def qvi_loop (lam eps : ℚ) (m : Modelo) : Nat → QTable → Option QTable
  | 0, _ => none
  | fuel + 1, q =>
    let bq := barrido lam m q
    if bq.2 > eps then qvi_loop lam eps m fuel bq.1 else some q

/-- The argmax scan over one state's row (lines 206-216).  `ordA` is the
iteration order in which the row's unordered `HashMap` yields its (action,
value) pairs for this run; `none` plays the role of the initial
(`String::new()`, `NEG_INFINITY`) pair, which the first scanned entry always
replaces under the strict `>`. -/
def mejor (ordA : List Accion) (q : QTable) (s : Estado) : Option (Accion × ℚ) :=
  ordA.foldl (fun mej a =>
    match mej with
    | none => some (a, q s a)
    | some pr => if q s a > pr.2 then some (a, q s a) else some pr) none

/-- Policy / value-map derivation after the loop (lines 197-223): obstacles
are skipped, every other state — the goal included — gets one `politica` and
one `v_valores` entry.  The maps are embedded as association lists in visit
order; a state whose scan yields nothing (impossible: every row is nonempty)
is skipped. -/
def derivar (ord : Estado → List Accion) (q : QTable) :
    List (Estado × Accion) × List (Estado × ℚ) :=
  listaEstados.foldl (fun acc estado =>
    if estado ∈ OBSTACULOS then acc
    else
      match mejor (ord estado) q estado with
      | none => acc
      | some pr => (acc.1 ++ [(estado, pr.1)], acc.2 ++ [(estado, pr.2)]))
    ([], [])

/-- mdp_model.rs `q_value_iteration`, parameterized by the run's table
iteration orders `ord` (one per state) used in the argmax scan, and by an
explicit fuel for the unbounded loop.  Returns (Q-table, politica, v_valores). -/
def q_value_iteration_ord (ord : Estado → List Accion) (fuel : Nat) (lam : ℚ)
    (epsilon : Option ℚ) (prob_transicion_externa : Option Modelo) :
    Option (QTable × List (Estado × Accion) × List (Estado × ℚ)) :=
  let eps := epsilon.getD UMBRAL_CONVERGENCIA
  let m := prob_transicion_externa.getD modelo_base
  match qvi_loop lam eps m fuel (fun _ _ => 0) with
  | none => none
  | some q =>
    let d := derivar ord q
    some (q, d.1, d.2)

/-- `q_value_iteration` with the canonical iteration order {N, S, E, O} for
every row. -/
def q_value_iteration (fuel : Nat) (lam : ℚ) (epsilon : Option ℚ)
    (prob_transicion_externa : Option Modelo) :
    Option (QTable × List (Estado × Accion) × List (Estado × ℚ)) :=
  q_value_iteration_ord (fun _ => acciones) fuel lam epsilon
    prob_transicion_externa

/-! ### Characterization of one sweep -/

/-- States whose row a sweep writes: non-obstacles that are the goal or have
a position on the map. -/
def escribible (e : Estado) : Prop :=
  e ∉ OBSTACULOS ∧ (e = ESTADO_META ∨ (obtener_posicion e).isOk)

instance (e : Estado) : Decidable (escribible e) := by
  unfold escribible; infer_instance

/-- The value a sweep writes at (e, a): the pinned reward for the goal, the
Bellman backup otherwise (0 is a dead branch kept total for states without a
position, which are not `escribible`). -/
def valorFila (lam : ℚ) (m : Modelo) (qold : QTable) (e : Estado) (a : Accion) : ℚ :=
  if e = ESTADO_META then recompensa ESTADO_META
  else
    match obtener_posicion e with
    | .ok (f, c) => q_final lam m qold e f c a
    | .error _ => 0

/-- States that contribute to a sweep's delta: writable, not the goal. -/
def condDelta (e : Estado) : Prop :=
  e ∉ OBSTACULOS ∧ e ≠ ESTADO_META ∧ (obtener_posicion e).isOk

instance (e : Estado) : Decidable (condDelta e) := by
  unfold condDelta; infer_instance

/-- The |old − new| terms state `e` feeds into the delta fold. -/
def deltaLocal (lam : ℚ) (m : Modelo) (qold : QTable) (e : Estado) : List ℚ :=
  if condDelta e then
    acciones.map (fun a => |qold e a - valorFila lam m qold e a|)
  else []

theorem foldl_max_le_init {α : Type} [LinearOrder α] (l : List α) (b : α) :
    b ≤ l.foldl max b := by
  induction l generalizing b with
  | nil => exact le_refl b
  | cons x xs ih => exact le_trans (le_max_left b x) (ih (max b x))

theorem foldl_max_le_of_mem {α : Type} [LinearOrder α] {l : List α} {x : α}
    (hx : x ∈ l) (b : α) : x ≤ l.foldl max b := by
  induction l generalizing b with
  | nil => cases hx
  | cons y ys ih =>
    rcases List.mem_cons.mp hx with h | h
    · subst h
      exact le_trans (le_max_right b x) (foldl_max_le_init ys (max b x))
    · exact ih h (max b y)

theorem foldl_max_le {α : Type} [LinearOrder α] {l : List α} {b c : α}
    (hb : b ≤ c) (h : ∀ x ∈ l, x ≤ c) : l.foldl max b ≤ c := by
  induction l generalizing b with
  | nil => exact hb
  | cons x xs ih =>
    exact ih (max_le hb (h x (List.mem_cons_self x xs))) fun y hy =>
      h y (List.mem_cons_of_mem x hy)

theorem foldl_add_eq_sum {α : Type} (l : List α) (g : α → ℚ) (b : ℚ) :
    l.foldl (fun acc x => acc + g x) b = b + (l.map g).sum := by
  induction l generalizing b with
  | nil => simp
  | cons x xs ih => simp [ih]; ring

/-- The table a `paso_estado` step leaves behind, pointwise. -/
theorem paso_estado_fst (lam : ℚ) (m : Modelo) (qold : QTable)
    (acc : QTable × ℚ) (e : Estado) (s' : Estado) (a' : Accion) :
    (paso_estado lam m qold acc e).1 s' a' =
      if s' = e ∧ escribible e ∧ a' ∈ acciones then valorFila lam m qold e a'
      else acc.1 s' a' := by
  unfold paso_estado
  by_cases hobs : e ∈ OBSTACULOS
  · simp [hobs, escribible]
  by_cases hmeta : e = ESTADO_META
  · subst hmeta
    have hescr : escribible ESTADO_META := ⟨hobs, Or.inl rfl⟩
    rw [if_neg hobs, if_pos rfl]
    simp only [acciones, List.foldl_cons, List.foldl_nil]
    by_cases hs : s' = ESTADO_META
    · subst hs
      by_cases h1 : a' = "N" <;> by_cases h2 : a' = "S" <;>
        by_cases h3 : a' = "E" <;> by_cases h4 : a' = "O" <;>
        simp_all [actualizar, valorFila, escribible, acciones]
    · simp [actualizar, hs]
  · rw [if_neg hobs, if_neg hmeta]
    cases hpos : obtener_posicion e with
    | error msg =>
      have : ¬ escribible e := by
        simp [escribible, hobs, hmeta, hpos, Except.isOk, Except.toBool]
      simp [this]
    | ok p =>
      obtain ⟨f, c⟩ := p
      have hescr : escribible e := by
        simp [escribible, hobs, hmeta, hpos, Except.isOk, Except.toBool]
      simp only [acciones, List.foldl_cons, List.foldl_nil]
      by_cases hs : s' = e
      · subst hs
        by_cases h1 : a' = "N" <;> by_cases h2 : a' = "S" <;>
          by_cases h3 : a' = "E" <;> by_cases h4 : a' = "O" <;>
          simp_all [actualizar, valorFila, hpos, hmeta, acciones]
      · simp [actualizar, hs]

/-- The delta a `paso_estado` step leaves behind. -/
theorem paso_estado_snd (lam : ℚ) (m : Modelo) (qold : QTable)
    (acc : QTable × ℚ) (e : Estado) :
    (paso_estado lam m qold acc e).2 =
      (deltaLocal lam m qold e).foldl max acc.2 := by
  unfold paso_estado deltaLocal
  by_cases hobs : e ∈ OBSTACULOS
  · simp [hobs, condDelta]
  by_cases hmeta : e = ESTADO_META
  · subst hmeta
    simp [hobs, condDelta]
  · simp only [if_neg hobs, if_neg hmeta]
    cases hpos : obtener_posicion e with
    | error msg =>
      have : ¬ condDelta e := by
        simp [condDelta, hobs, hmeta, hpos, Except.isOk, Except.toBool]
      simp [this]
    | ok p =>
      obtain ⟨f, c⟩ := p
      have hcond : condDelta e := by
        simp [condDelta, hobs, hmeta, hpos, Except.isOk, Except.toBool]
      simp [hcond, acciones, valorFila, hmeta, hpos]

/-- After folding `paso_estado` over any state list, the table holds the
Bellman value (computed from the untouched old table) at every visited
writable (state, action) and the initial table's value elsewhere. -/
theorem foldl_paso_estado_fst (lam : ℚ) (m : Modelo) (qold : QTable)
    (l : List Estado) (acc : QTable × ℚ) (s' : Estado) (a' : Accion) :
    (l.foldl (paso_estado lam m qold) acc).1 s' a' =
      if s' ∈ l ∧ escribible s' ∧ a' ∈ acciones then valorFila lam m qold s' a'
      else acc.1 s' a' := by
  induction l generalizing acc with
  | nil => simp
  | cons e resto ih =>
    simp only [List.foldl_cons]
    rw [ih]
    by_cases hr : s' ∈ resto ∧ escribible s' ∧ a' ∈ acciones
    · rw [if_pos hr, if_pos ⟨List.mem_cons_of_mem e hr.1, hr.2⟩]
    · rw [if_neg hr, paso_estado_fst]
      by_cases hse : s' = e
      · subst hse
        by_cases hw : escribible s' ∧ a' ∈ acciones
        · rw [if_pos ⟨rfl, hw⟩, if_pos ⟨List.mem_cons_self s' resto, hw⟩]
        · rw [if_neg (fun h => hw h.2), if_neg (fun h => hw h.2)]
      · rw [if_neg (fun h => hse h.1), if_neg]
        intro h
        rcases List.mem_cons.mp h.1 with h' | h'
        · exact hse h'
        · exact hr ⟨h', h.2⟩

/-- After folding `paso_estado` over a state list, the delta is the running
max of every visited state's |old − new| contributions. -/
theorem foldl_paso_estado_snd (lam : ℚ) (m : Modelo) (qold : QTable)
    (l : List Estado) (acc : QTable × ℚ) :
    (l.foldl (paso_estado lam m qold) acc).2 =
      (l.flatMap (deltaLocal lam m qold)).foldl max acc.2 := by
  induction l generalizing acc with
  | nil => simp
  | cons e resto ih =>
    simp only [List.foldl_cons, List.flatMap_cons, List.foldl_append]
    rw [ih, paso_estado_snd]

/-- The sweep's table, pointwise (the claim-level reading of lines 108-187). -/
theorem barrido_fst (lam : ℚ) (m : Modelo) (q : QTable) (s' : Estado)
    (a' : Accion) :
    (barrido lam m q).1 s' a' =
      if s' ∈ listaEstados ∧ escribible s' ∧ a' ∈ acciones then
        valorFila lam m q s' a'
      else q s' a' :=
  foldl_paso_estado_fst lam m q listaEstados (q, 0) s' a'

/-- The sweep's delta: the sup over the non-goal writable (state, action)
pairs of |old − new|, started at 0. -/
theorem barrido_snd (lam : ℚ) (m : Modelo) (q : QTable) :
    (barrido lam m q).2 =
      (listaEstados.flatMap (deltaLocal lam m q)).foldl max 0 :=
  foldl_paso_estado_snd lam m q listaEstados (q, 0)

/-! ### Characterization of the policy / value derivation -/

/-- The non-obstacle states in visit order: the key set of the derived
policy and value maps. -/
def estadosFiltrados : List Estado :=
  listaEstados.filter (fun e => decide (e ∉ OBSTACULOS))

/-- The (action, value) pair the argmax scan settles on (total companion of
`mejor`; the fallback is never used for a nonempty scan order). -/
def elegir (ordA : List Accion) (q : QTable) (s : Estado) : Accion × ℚ :=
  (mejor ordA q s).getD ("", 0)

theorem mejor_some_of_ne_nil (q : QTable) (s : Estado) :
    ∀ (l : List Accion), l ≠ [] → ∃ pr, mejor l q s = some pr := by
  have aux : ∀ (l : List Accion) (pr : Accion × ℚ),
      ∃ pr', l.foldl (fun mej a =>
        match mej with
        | none => some (a, q s a)
        | some pr => if q s a > pr.2 then some (a, q s a) else some pr)
        (some pr) = some pr' := by
    intro l
    induction l with
    | nil => exact fun pr => ⟨pr, rfl⟩
    | cons x xs ih =>
      intro pr
      simp only [List.foldl_cons]
      by_cases h : q s x > pr.2
      · simpa [h] using ih (x, q s x)
      · simpa [h] using ih pr
  intro l hl
  cases l with
  | nil => exact absurd rfl hl
  | cons x xs =>
    unfold mejor
    simpa using aux xs (x, q s x)

/-- If every scanned value equals `v`, the strict-`>` scan keeps the first
entry of the iteration order. -/
theorem mejor_const (q : QTable) (s : Estado) (x : Accion) (xs : List Accion)
    (v : ℚ) (h : ∀ a ∈ x :: xs, q s a = v) :
    mejor (x :: xs) q s = some (x, v) := by
  unfold mejor
  simp only [List.foldl_cons]
  rw [h x (List.mem_cons_self x xs)]
  have aux : ∀ (l : List Accion), (∀ a ∈ l, q s a = v) →
      l.foldl (fun mej a =>
        match mej with
        | none => some (a, q s a)
        | some pr => if q s a > pr.2 then some (a, q s a) else some pr)
        (some (x, v)) = some (x, v) := by
    intro l
    induction l with
    | nil => intro _; rfl
    | cons y ys ih =>
      intro hl
      simp only [List.foldl_cons]
      rw [show (if q s y > (x, v).2 then some (y, q s y) else some (x, v)) =
          some (x, v) by
        rw [hl y (List.mem_cons_self y ys)]
        simp]
      exact ih fun a ha => hl a (List.mem_cons_of_mem y ha)
  exact aux xs fun a ha => h a (List.mem_cons_of_mem x ha)

/-- The scan's settled value is the running max of the scanned values. -/
theorem mejor_foldl_snd (q : QTable) (s : Estado) :
    ∀ (l : List Accion) (pr : Accion × ℚ),
    ∃ a', l.foldl (fun mej a =>
      match mej with
      | none => some (a, q s a)
      | some pr => if q s a > pr.2 then some (a, q s a) else some pr)
      (some pr) = some (a', l.foldl (fun b x => max b (q s x)) pr.2) := by
  intro l
  induction l with
  | nil => exact fun pr => ⟨pr.1, rfl⟩
  | cons y ys ih =>
    intro pr
    simp only [List.foldl_cons]
    by_cases h : q s y > pr.2
    · rw [if_pos h, max_eq_right (le_of_lt h)]
      exact ih (y, q s y)
    · rw [if_neg h, max_eq_left (not_lt.mp h)]
      exact ih pr

/-- `mejor`'s value component over a nonempty order is `fold_max_ni` of the
scanned row values. -/
theorem mejor_snd_eq (q : QTable) (s : Estado) (x : Accion) (xs : List Accion) :
    ∃ a', mejor (x :: xs) q s = some (a', fold_max_ni ((x :: xs).map (q s))) := by
  unfold mejor fold_max_ni
  simp only [List.foldl_cons, List.map_cons]
  rw [show (xs.map (q s)).foldl max (q s x) =
      xs.foldl (fun b a => max b (q s a)) (q s x) from (List.foldl_map _ _ _ _)]
  exact mejor_foldl_snd q s xs (x, q s x)

/-- The derivation fold, characterized: one (state, best action) and one
(state, best value) entry per non-obstacle state, in visit order. -/
theorem derivar_eq (ord : Estado → List Accion) (q : QTable)
    (h : ∀ e, ord e ≠ []) :
    derivar ord q =
      (estadosFiltrados.map (fun e => (e, (elegir (ord e) q e).1)),
       estadosFiltrados.map (fun e => (e, (elegir (ord e) q e).2))) := by
  have aux : ∀ (l : List Estado) (A : List (Estado × Accion))
      (B : List (Estado × ℚ)),
      l.foldl (fun acc estado =>
        if estado ∈ OBSTACULOS then acc
        else
          match mejor (ord estado) q estado with
          | none => acc
          | some pr => (acc.1 ++ [(estado, pr.1)], acc.2 ++ [(estado, pr.2)]))
        (A, B) =
      (A ++ (l.filter (fun e => decide (e ∉ OBSTACULOS))).map
        (fun e => (e, (elegir (ord e) q e).1)),
       B ++ (l.filter (fun e => decide (e ∉ OBSTACULOS))).map
        (fun e => (e, (elegir (ord e) q e).2))) := by
    intro l
    induction l with
    | nil => intro A B; simp
    | cons e resto ih =>
      intro A B
      simp only [List.foldl_cons]
      by_cases hobs : e ∈ OBSTACULOS
      · rw [if_pos hobs]
        rw [ih A B]
        simp [List.filter_cons, hobs]
      · rw [if_neg hobs]
        obtain ⟨pr, hpr⟩ := mejor_some_of_ne_nil q e (ord e) (h e)
        rw [hpr]
        rw [ih (A ++ [(e, pr.1)]) (B ++ [(e, pr.2)])]
        have he : elegir (ord e) q e = pr := by simp [elegir, hpr]
        simp [List.filter_cons, hobs, he, List.append_assoc]
  unfold derivar estadosFiltrados listaEstados
  exact (aux MAPA_ESTADOS.flatten [] []).trans (by simp)

/-- Association-list lookup in a map built over a key list. -/
theorem lookup_map_self {β : Type} (l : List Estado) (g : Estado → β)
    (k : Estado) :
    ((l.map (fun e => (e, g e))).lookup k) =
      if k ∈ l then some (g k) else none := by
  induction l with
  | nil => simp
  | cons e resto ih =>
    simp only [List.map_cons, List.lookup]
    by_cases hk : k = e
    · subst hk
      simp
    · have : (k == e) = false := beq_false_of_ne hk
      simp [this, ih, hk]

/-! ### Inequality toolkit for the contraction argument -/

theorem abs_sum_weighted_sub_le (g h : Accion → ℚ) (B : ℚ) :
    ∀ (l : List (Accion × ℚ)), (∀ dp ∈ l, 0 ≤ dp.2) →
    (∀ dp ∈ l, |g dp.1 - h dp.1| ≤ B) →
    |(l.map (fun dp => dp.2 * g dp.1)).sum -
      (l.map (fun dp => dp.2 * h dp.1)).sum| ≤ (l.map Prod.snd).sum * B := by
  intro l
  induction l with
  | nil => intro _ _; simp
  | cons dp rest ih =>
    intro hp hg
    simp only [List.map_cons, List.sum_cons]
    have hdp : 0 ≤ dp.2 := hp dp (List.mem_cons_self dp rest)
    have h1 : |dp.2 * g dp.1 - dp.2 * h dp.1| ≤ dp.2 * B := by
      rw [← mul_sub, abs_mul, abs_of_nonneg hdp]
      exact mul_le_mul_of_nonneg_left (hg dp (List.mem_cons_self dp rest)) hdp
    have h2 := ih (fun x hx => hp x (List.mem_cons_of_mem dp hx))
      (fun x hx => hg x (List.mem_cons_of_mem dp hx))
    calc |dp.2 * g dp.1 + (rest.map (fun dp => dp.2 * g dp.1)).sum -
          (dp.2 * h dp.1 + (rest.map (fun dp => dp.2 * h dp.1)).sum)|
        = |(dp.2 * g dp.1 - dp.2 * h dp.1) +
            ((rest.map (fun dp => dp.2 * g dp.1)).sum -
              (rest.map (fun dp => dp.2 * h dp.1)).sum)| := by
          congr 1
          ring
      _ ≤ |dp.2 * g dp.1 - dp.2 * h dp.1| +
            |(rest.map (fun dp => dp.2 * g dp.1)).sum -
              (rest.map (fun dp => dp.2 * h dp.1)).sum| := abs_add _ _
      _ ≤ dp.2 * B + (rest.map Prod.snd).sum * B := add_le_add h1 h2
      _ = (dp.2 + (rest.map Prod.snd).sum) * B := by ring

theorem max_q_destino_zero (s : Estado) : max_q_destino (fun _ _ => 0) s = 0 := by
  simp [max_q_destino, acciones, fold_max_ni]

theorem abs_max_q_destino_sub_le (q q' : QTable) (t : Estado) (B : ℚ)
    (h : ∀ a ∈ acciones, |q t a - q' t a| ≤ B) :
    |max_q_destino q t - max_q_destino q' t| ≤ B := by
  have hN := h "N" (by decide)
  have hS := h "S" (by decide)
  have hE := h "E" (by decide)
  have hO := h "O" (by decide)
  simp only [max_q_destino, acciones, List.map_cons, List.map_nil, fold_max_ni,
    List.foldl_cons, List.foldl_nil]
  exact le_trans (abs_max_sub_max_le_max _ _ _ _)
    (max_le
      (le_trans (abs_max_sub_max_le_max _ _ _ _)
        (max_le
          (le_trans (abs_max_sub_max_le_max _ _ _ _) (max_le hN hS)) hE)) hO)

theorem abs_max_q_destino_le (q : QTable) (t : Estado) (B : ℚ)
    (h : ∀ a ∈ acciones, |q t a| ≤ B) : |max_q_destino q t| ≤ B := by
  have h' : ∀ a ∈ acciones, |q t a - (fun _ _ => (0:ℚ)) t a| ≤ B := by
    intro a ha; simpa using h a ha
  have := abs_max_q_destino_sub_le q (fun _ _ => 0) t B h'
  simpa [max_q_destino_zero] using this

theorem q_final_eq_sum (lam : ℚ) (m : Modelo) (q : QTable) (s : Estado)
    (f c : Nat) (a : Accion) :
    q_final lam m q s f c a =
      recompensa s + lam * ((m a).map
        (fun dp => dp.2 * max_q_destino q (destino s f c dp.1))).sum := by
  unfold q_final
  rw [foldl_add_eq_sum, zero_add]

theorem q_final_zero (lam : ℚ) (m : Modelo) (s : Estado) (f c : Nat)
    (a : Accion) : q_final lam m (fun _ _ => 0) s f c a = recompensa s := by
  rw [q_final_eq_sum]
  have hz : ∀ x ∈ (m a).map
      (fun dp => dp.2 * max_q_destino (fun _ _ => 0) (destino s f c dp.1)),
      x = 0 := by
    intro x hx
    obtain ⟨dp, _, rfl⟩ := List.mem_map.mp hx
    simp [max_q_destino_zero]
  rw [List.sum_eq_zero hz, mul_zero, add_zero]

theorem valorFila_zero (lam : ℚ) (m : Modelo) (s : Estado)
    (h : escribible s) (a : Accion) :
    valorFila lam m (fun _ _ => 0) s a = recompensa s := by
  unfold valorFila
  by_cases hm : s = ESTADO_META
  · rw [if_pos hm, hm]
  · rw [if_neg hm]
    rcases h.2 with hM | hOk
    · exact absurd hM hm
    cases hpos : obtener_posicion s with
    | error msg =>
      rw [hpos] at hOk
      simp [Except.isOk, Except.toBool] at hOk
    | ok p =>
      obtain ⟨f, c⟩ := p
      exact q_final_zero lam m s f c a

theorem recompensa_meta : recompensa ESTADO_META = 10 := by
  simp [recompensa]

/-- A first sweep from the all-zero table has delta exactly 1/2 (the danger
states' |0 − reward|), for every discount factor and every model: the old
table being zero kills every expectation term. -/
theorem barrido_zero_delta (lam : ℚ) (m : Modelo) :
    (barrido lam m (fun _ _ => 0)).2 = 1/2 := by
  rw [barrido_snd]
  apply le_antisymm
  · apply foldl_max_le (by norm_num)
    intro x hx
    obtain ⟨e, _, hx⟩ := List.mem_flatMap.mp hx
    unfold deltaLocal at hx
    by_cases hc : condDelta e
    · rw [if_pos hc] at hx
      obtain ⟨a, _, rfl⟩ := List.mem_map.mp hx
      have hesc : escribible e := ⟨hc.1, Or.inr hc.2.2⟩
      rw [valorFila_zero lam m e hesc a, zero_sub, abs_neg]
      unfold recompensa
      rw [if_neg hc.2.1]
      by_cases hp : e ∈ ESTADOS_PELIGRO
      · rw [if_pos hp]
        exact abs_le.mpr ⟨by norm_num, by norm_num⟩
      · rw [if_neg hp]
        exact abs_le.mpr ⟨by norm_num, by norm_num⟩
    · rw [if_neg hc] at hx
      cases hx
  · apply foldl_max_le_of_mem
    apply List.mem_flatMap.mpr
    refine ⟨"P1", by decide, ?_⟩
    unfold deltaLocal
    rw [if_pos (by decide)]
    apply List.mem_map.mpr
    refine ⟨"N", by decide, ?_⟩
    rw [valorFila_zero lam m "P1" (by decide) "N"]
    show |0 - recompensa "P1"| = 1/2
    unfold recompensa
    rw [if_neg (by decide), if_pos (by decide), zero_sub, neg_neg,
      abs_of_nonneg (by norm_num)]

/-- Every sweep pins the goal row to its reward. -/
theorem barrido_meta (lam : ℚ) (m : Modelo) (q : QTable) (a : Accion)
    (ha : a ∈ acciones) :
    (barrido lam m q).1 ESTADO_META a = recompensa ESTADO_META := by
  rw [barrido_fst, if_pos ⟨by decide, ⟨by decide, Or.inl rfl⟩, ha⟩]
  unfold valorFila
  rw [if_pos rfl]

/-- The delta fold never dips below its 0 start. -/
theorem barrido_delta_nonneg (lam : ℚ) (m : Modelo) (q : QTable) :
    0 ≤ (barrido lam m q).2 := by
  rw [barrido_snd]
  exact foldl_max_le_init _ 0

/-- Each non-goal |old − new| term is below the sweep's delta. -/
theorem le_barrido_delta (lam : ℚ) (m : Modelo) (q : QTable) (e : Estado)
    (he : e ∈ listaEstados) (hc : condDelta e) (a : Accion)
    (ha : a ∈ acciones) :
    |q e a - valorFila lam m q e a| ≤ (barrido lam m q).2 := by
  rw [barrido_snd]
  apply foldl_max_le_of_mem
  apply List.mem_flatMap.mpr
  refine ⟨e, he, ?_⟩
  unfold deltaLocal
  rw [if_pos hc]
  exact List.mem_map.mpr ⟨a, ha, rfl⟩

/-- The sweep's delta is below any bound dominating every non-goal
|old − new| term. -/
theorem barrido_delta_le (lam : ℚ) (m : Modelo) (q : QTable) (b : ℚ)
    (hb : 0 ≤ b)
    (h : ∀ e ∈ listaEstados, condDelta e → ∀ a ∈ acciones,
      |q e a - valorFila lam m q e a| ≤ b) :
    (barrido lam m q).2 ≤ b := by
  rw [barrido_snd]
  apply foldl_max_le hb
  intro x hx
  obtain ⟨e, he, hx⟩ := List.mem_flatMap.mp hx
  unfold deltaLocal at hx
  by_cases hc : condDelta e
  · rw [if_pos hc] at hx
    obtain ⟨a, ha, rfl⟩ := List.mem_map.mp hx
    exact h e he hc a ha
  · rw [if_neg hc] at hx
    cases hx

/-! ### Contraction and termination of the solver loop -/

theorem mover_por_defecto (f c : Nat) (d : Accion) (h1 : d ≠ "N")
    (h2 : d ≠ "S") (h3 : d ≠ "E") (h4 : d ≠ "O") :
    mover f c d = ((f : ℤ), (c : ℤ)) := by
  unfold mover
  split <;> simp_all

theorem filtrados_mem_lista : ∀ t ∈ estadosFiltrados, t ∈ listaEstados := by
  decide

theorem filtrados_condDelta :
    ∀ t ∈ estadosFiltrados, t ≠ ESTADO_META → condDelta t := by
  decide

theorem meta_mem_filtrados : ESTADO_META ∈ estadosFiltrados := by decide

/-- Total accessor for a state's coordinates (the fallback is never hit for
map states). -/
def posicionDe (s : Estado) : Nat × Nat :=
  match obtener_posicion s with
  | .ok p => p
  | .error _ => (0, 0)

theorem destino_conocido_filtrados :
    ∀ s ∈ estadosFiltrados, ∀ d ∈ acciones,
      destino s (posicionDe s).1 (posicionDe s).2 d ∈ estadosFiltrados := by
  decide

theorem posicion_estado_coincide :
    ∀ s ∈ estadosFiltrados,
      obtener_estado ((posicionDe s).1 : ℤ) ((posicionDe s).2 : ℤ) = some s := by
  decide

/-- Every destination the Bellman sum can read — for any direction string,
known or not — is again a non-obstacle map state. -/
theorem destino_filtrados (s : Estado) (hs : s ∈ estadosFiltrados)
    (f c : Nat) (hpos : obtener_posicion s = .ok (f, c)) (d : Accion) :
    destino s f c d ∈ estadosFiltrados := by
  have hpd : posicionDe s = (f, c) := by
    unfold posicionDe
    rw [hpos]
  by_cases h1 : d = "N"
  · have := destino_conocido_filtrados s hs d (by rw [h1]; decide)
    rw [hpd] at this
    exact this
  by_cases h2 : d = "S"
  · have := destino_conocido_filtrados s hs d (by rw [h2]; decide)
    rw [hpd] at this
    exact this
  by_cases h3 : d = "E"
  · have := destino_conocido_filtrados s hs d (by rw [h3]; decide)
    rw [hpd] at this
    exact this
  by_cases h4 : d = "O"
  · have := destino_conocido_filtrados s hs d (by rw [h4]; decide)
    rw [hpd] at this
    exact this
  · have hself := posicion_estado_coincide s hs
    rw [hpd] at hself
    unfold destino
    rw [mover_por_defecto f c d h1 h2 h3 h4]
    simp only []
    rw [show obtener_estado (f : ℤ) (c : ℤ) = some s from hself]
    exact hs

/-- One-step contraction of the Bellman backup in the sup norm over the
non-obstacle (state, action) pairs, for sub-stochastic nonnegative models. -/
theorem abs_q_final_sub_le (lam : ℚ) (m : Modelo) (Q Q' : QTable) (B : ℚ)
    (hlam : 0 ≤ lam) (hB : 0 ≤ B)
    (hm : ∀ a ∈ acciones,
      (∀ dp ∈ m a, 0 ≤ dp.2) ∧ ((m a).map Prod.snd).sum ≤ 1)
    (hQ : ∀ t ∈ estadosFiltrados, ∀ a' ∈ acciones, |Q t a' - Q' t a'| ≤ B)
    (s : Estado) (hs : s ∈ estadosFiltrados) (f c : Nat)
    (hpos : obtener_posicion s = .ok (f, c)) (a : Accion) (ha : a ∈ acciones) :
    |q_final lam m Q s f c a - q_final lam m Q' s f c a| ≤ lam * B := by
  rw [q_final_eq_sum, q_final_eq_sum]
  have heq : recompensa s +
        lam * ((m a).map
          (fun dp => dp.2 * max_q_destino Q (destino s f c dp.1))).sum -
      (recompensa s +
        lam * ((m a).map
          (fun dp => dp.2 * max_q_destino Q' (destino s f c dp.1))).sum) =
      lam * (((m a).map
          (fun dp => dp.2 * max_q_destino Q (destino s f c dp.1))).sum -
        ((m a).map
          (fun dp => dp.2 * max_q_destino Q' (destino s f c dp.1))).sum) := by
    ring
  rw [heq, abs_mul, abs_of_nonneg hlam]
  apply mul_le_mul_of_nonneg_left _ hlam
  have hsum := abs_sum_weighted_sub_le
    (fun d => max_q_destino Q (destino s f c d))
    (fun d => max_q_destino Q' (destino s f c d)) B (m a)
    (fun dp hdp => ((hm a ha).1) dp hdp)
    (fun dp _ => abs_max_q_destino_sub_le Q Q' (destino s f c dp.1) B
      (fun a' ha' => hQ (destino s f c dp.1)
        (destino_filtrados s hs f c hpos dp.1) a' ha'))
  refine le_trans hsum ?_
  calc ((m a).map Prod.snd).sum * B ≤ 1 * B :=
        mul_le_mul_of_nonneg_right (hm a ha).2 hB
    _ = B := one_mul B

/-- Sweep-level contraction: once the goal row is pinned, each further
sweep's delta shrinks by at least the factor λ. -/
theorem barrido_contraccion (lam : ℚ) (m : Modelo) (Q : QTable)
    (hlam : 0 ≤ lam)
    (hm : ∀ a ∈ acciones,
      (∀ dp ∈ m a, 0 ≤ dp.2) ∧ ((m a).map Prod.snd).sum ≤ 1)
    (hmeta : ∀ a ∈ acciones, Q ESTADO_META a = recompensa ESTADO_META) :
    (barrido lam m (barrido lam m Q).1).2 ≤ lam * (barrido lam m Q).2 := by
  apply barrido_delta_le _ _ _ _
    (mul_nonneg hlam (barrido_delta_nonneg lam m Q))
  intro e he hc a ha
  have hfil : e ∈ estadosFiltrados := by
    unfold estadosFiltrados
    exact List.mem_filter.mpr ⟨he, by simpa using hc.1⟩
  obtain ⟨f, c, hpos⟩ : ∃ f c, obtener_posicion e = .ok (f, c) := by
    cases hpc : obtener_posicion e with
    | ok p =>
      obtain ⟨f, c⟩ := p
      exact ⟨f, c, rfl⟩
    | error msg =>
      have := hc.2.2
      rw [hpc] at this
      simp [Except.isOk, Except.toBool] at this
  have hQ1e : (barrido lam m Q).1 e a = valorFila lam m Q e a := by
    rw [barrido_fst, if_pos ⟨he, ⟨hc.1, Or.inr hc.2.2⟩, ha⟩]
  have hvf : ∀ T : QTable, valorFila lam m T e a = q_final lam m T e f c a := by
    intro T
    unfold valorFila
    rw [if_neg hc.2.1, hpos]
  rw [hQ1e, hvf, hvf]
  apply abs_q_final_sub_le lam m Q ((barrido lam m Q).1)
    ((barrido lam m Q).2) hlam (barrido_delta_nonneg lam m Q) hm _ e hfil f c
    hpos a ha
  intro t ht a' ha'
  by_cases hteq : t = ESTADO_META
  · subst hteq
    rw [hmeta a' ha', barrido_meta lam m Q a' ha', sub_self, abs_zero]
    exact barrido_delta_nonneg lam m Q
  · have hct : condDelta t := filtrados_condDelta t ht hteq
    have hQ1t : (barrido lam m Q).1 t a' = valorFila lam m Q t a' := by
      rw [barrido_fst, if_pos ⟨filtrados_mem_lista t ht,
        ⟨hct.1, Or.inr hct.2.2⟩, ha'⟩]
    rw [hQ1t]
    exact le_barrido_delta lam m Q t (filtrados_mem_lista t ht) hct a' ha'

/-- Iterates of the sweep from a starting table. -/
def iterDesde (lam : ℚ) (m : Modelo) (Q : QTable) : Nat → QTable
  | 0 => Q
  | n + 1 => (barrido lam m (iterDesde lam m Q n)).1

theorem iterDesde_succ_front (lam : ℚ) (m : Modelo) (Q : QTable) (n : Nat) :
    iterDesde lam m Q (n + 1) = iterDesde lam m ((barrido lam m Q).1) n := by
  induction n with
  | zero => rfl
  | succ n ih =>
    show (barrido lam m (iterDesde lam m Q (n + 1))).1 = _
    rw [ih]
    rfl

theorem iterDesde_meta (lam : ℚ) (m : Modelo) (Q : QTable) (n : Nat)
    (a : Accion) (ha : a ∈ acciones) :
    iterDesde lam m Q (n + 1) ESTADO_META a = recompensa ESTADO_META :=
  barrido_meta lam m (iterDesde lam m Q n) a ha

/-- Geometric decay of the sweep deltas after the first sweep. -/
theorem delta_iter_decae (lam : ℚ) (m : Modelo) (hlam : 0 ≤ lam)
    (hm : ∀ a ∈ acciones,
      (∀ dp ∈ m a, 0 ≤ dp.2) ∧ ((m a).map Prod.snd).sum ≤ 1) :
    ∀ k, (barrido lam m (iterDesde lam m (fun _ _ => 0) (k + 1))).2 ≤
      lam ^ k * (barrido lam m (iterDesde lam m (fun _ _ => 0) 1)).2 := by
  intro k
  induction k with
  | zero => simp
  | succ k ih =>
    have hstep : (barrido lam m (iterDesde lam m (fun _ _ => 0) (k + 2))).2 ≤
        lam * (barrido lam m (iterDesde lam m (fun _ _ => 0) (k + 1))).2 := by
      show (barrido lam m
        (barrido lam m (iterDesde lam m (fun _ _ => 0) (k + 1))).1).2 ≤ _
      exact barrido_contraccion lam m (iterDesde lam m (fun _ _ => 0) (k + 1))
        hlam hm (fun a ha => iterDesde_meta lam m (fun _ _ => 0) k a ha)
    calc (barrido lam m (iterDesde lam m (fun _ _ => 0) (k + 2))).2
        ≤ lam * (barrido lam m (iterDesde lam m (fun _ _ => 0) (k + 1))).2 :=
          hstep
      _ ≤ lam * (lam ^ k *
            (barrido lam m (iterDesde lam m (fun _ _ => 0) 1)).2) :=
          mul_le_mul_of_nonneg_left ih hlam
      _ = lam ^ (k + 1) *
            (barrido lam m (iterDesde lam m (fun _ _ => 0) 1)).2 := by ring

/-- The loop returns as soon as some sweep within the fuel budget has a
delta at or below ε. -/
theorem qvi_loop_some (lam eps : ℚ) (m : Modelo) :
    ∀ (fuel : Nat) (Q : QTable),
      (∃ j, j < fuel ∧ (barrido lam m (iterDesde lam m Q j)).2 ≤ eps) →
      ∃ out, qvi_loop lam eps m fuel Q = some out := by
  intro fuel
  induction fuel with
  | zero =>
    intro Q ⟨j, hj, _⟩
    exact absurd hj (Nat.not_lt_zero j)
  | succ n ih =>
    intro Q ⟨j, hj, hle⟩
    simp only [qvi_loop]
    by_cases hd : (barrido lam m Q).2 > eps
    · rw [if_pos hd]
      apply ih
      cases j with
      | zero => exact absurd hle (not_le.mpr hd)
      | succ j' =>
        refine ⟨j', Nat.lt_of_succ_lt_succ hj, ?_⟩
        rw [← iterDesde_succ_front]
        exact hle
    · rw [if_neg hd]
      exact ⟨Q, rfl⟩

/-! ### Dense transition matrices (transition_matrices.rs) -/

/-- transition_matrices.rs: the non-obstacle, nonempty state labels, in map
order — the matrix's row/column index space. -/
def vec_estados : List Estado :=
  MAPA_ESTADOS.flatten.filter
    (fun s => !s.isEmpty && !(OBSTACULOS.contains s))

/-- transition_matrices.rs lines 48-56: destination of one outcome, folded
back to the origin when out of bounds or an obstacle (the explicit obstacle
re-check of line 54 is kept even though `obtener_estado` already filters
obstacles). -/
def destinoMatriz (origen : Estado) (f c : Nat) (d : Accion) : Estado :=
  let destino0 := (obtener_estado (mover f c d).1 (mover f c d).2).getD origen
  if OBSTACULOS.contains destino0 then origen else destino0

/-- One `matriz[[i, j]] += probabilidad` update (line 60). -/
def pasoCelda (origen : Estado) (f c : Nat) (mat2 : List (List ℚ))
    (dp : Accion × ℚ) : List (List ℚ) :=
  let i := vec_estados.indexOf origen
  let j := vec_estados.indexOf (destinoMatriz origen f c dp.1)
  mat2.set i ((mat2.getD i []).set j (((mat2.getD i []).getD j 0) + dp.2))

/-- One origin state's contribution (lines 41-63): nothing if the origin has
no position or the action is not in the model, otherwise one `+=` per
outcome of the action's row. -/
def pasoOrigen (sAccion : String) (mat : List (List ℚ)) (origen : Estado) :
    List (List ℚ) :=
  match obtener_posicion origen with
  | .error _ => mat
  | .ok (f, c) =>
    match prob_transicion.lookup sAccion with
    | none => mat
    | some transiciones => transiciones.foldl (pasoCelda origen f c) mat

/-- transition_matrices.rs `construir_matriz_transicion`: the |S|×|S| dense
matrix (as a list of rows) for one action; mass accumulates additively with
`+=`.  An unknown action leaves the zero matrix untouched (the model lookup
yields nothing). -/
def construir_matriz_transicion (sAccion : String) : List (List ℚ) :=
  vec_estados.foldl (pasoOrigen sAccion)
    (List.replicate vec_estados.length
      (List.replicate vec_estados.length (0 : ℚ)))

/-- Row sums of a matrix. -/
def sumaFilas (mat : List (List ℚ)) : List ℚ := mat.map List.sum

theorem getD_set_self {α : Type} :
    ∀ (l : List α) (i : Nat) (a d : α), i < l.length →
      (l.set i a).getD i d = a := by
  intro l
  induction l with
  | nil => intro i a d h; cases h
  | cons x xs ih =>
    intro i a d h
    cases i with
    | zero => rfl
    | succ i => exact ih i a d (Nat.lt_of_succ_lt_succ h)

theorem getD_set_ne {α : Type} :
    ∀ (l : List α) (i j : Nat) (a d : α), i ≠ j →
      (l.set i a).getD j d = l.getD j d := by
  intro l
  induction l with
  | nil => intro i j a d _; rfl
  | cons x xs ih =>
    intro i j a d hij
    cases i with
    | zero =>
      cases j with
      | zero => exact absurd rfl hij
      | succ j => rfl
    | succ i =>
      cases j with
      | zero => rfl
      | succ j => exact ih i j a d (fun h => hij (congrArg Nat.succ h))

theorem sum_set_add :
    ∀ (l : List ℚ) (j : Nat) (p : ℚ), j < l.length →
      (l.set j (l.getD j 0 + p)).sum = l.sum + p := by
  intro l
  induction l with
  | nil => intro j p h; cases h
  | cons x xs ih =>
    intro j p h
    cases j with
    | zero =>
      show (x + p) + xs.sum = (x + xs.sum) + p
      ring
    | succ j =>
      show x + (xs.set j (xs.getD j 0 + p)).sum = (x + xs.sum) + p
      rw [ih j p (Nat.lt_of_succ_lt_succ h)]
      ring

theorem getD_map_sum :
    ∀ (mat : List (List ℚ)) (i : Nat),
      (mat.map List.sum).getD i 0 = (mat.getD i []).sum := by
  intro mat
  induction mat with
  | nil => intro i; cases i <;> rfl
  | cons r rs ih =>
    intro i
    cases i with
    | zero => rfl
    | succ i => exact ih i

theorem map_sum_set (mat : List (List ℚ)) (i : Nat) (r : List ℚ) :
    (mat.set i r).map List.sum = (mat.map List.sum).set i r.sum := by
  induction mat generalizing i with
  | nil => cases i <;> rfl
  | cons x xs ih =>
    cases i with
    | zero => rfl
    | succ i =>
      show List.sum x :: (xs.set i r).map List.sum = _
      rw [ih i]
      rfl

/-- Shape predicate: an n×n matrix. -/
def Forma (n : Nat) (mat : List (List ℚ)) : Prop :=
  mat.length = n ∧ ∀ row ∈ mat, row.length = n

theorem forma_set (n : Nat) (mat : List (List ℚ)) (i : Nat) (r : List ℚ)
    (hf : Forma n mat) (hr : r.length = n) : Forma n (mat.set i r) := by
  constructor
  · rw [List.length_set]
    exact hf.1
  · intro row hrow
    rcases List.mem_or_eq_of_mem_set hrow with h | h
    · exact hf.2 row h
    · rw [h]
      exact hr

theorem forma_getD (n : Nat) (mat : List (List ℚ)) (i : Nat)
    (hf : Forma n mat) (hi : i < n) : (mat.getD i []).length = n := by
  apply hf.2
  have hlen : i < mat.length := by rw [hf.1]; exact hi
  rw [List.getD_eq_getElem _ _ hlen]
  exact List.getElem_mem hlen

theorem set_getD_self : ∀ (l : List ℚ) (i : Nat), l.set i (l.getD i 0) = l := by
  intro l
  induction l with
  | nil => intro i; rfl
  | cons x xs ih =>
    intro i
    cases i with
    | zero => rfl
    | succ i =>
      show x :: xs.set i (xs.getD i 0) = x :: xs
      rw [ih i]

theorem set_fuera_de_rango {α : Type} :
    ∀ (l : List α) (i : Nat) (a : α), l.length ≤ i → l.set i a = l := by
  intro l
  induction l with
  | nil => intro i a _; rfl
  | cons x xs ih =>
    intro i a h
    cases i with
    | zero => cases h
    | succ i =>
      show x :: xs.set i a = x :: xs
      rw [ih i a (Nat.le_of_succ_le_succ h)]

/-- Per-origin: the inner fold over an action's outcomes keeps the matrix
square and adds exactly the outcomes' total mass to the origin's row sum. -/
theorem sumaFilas_pasoCelda_fold (origen : Estado) (f c : Nat) :
    ∀ (l : List (Accion × ℚ)) (mat2 : List (List ℚ)),
      Forma vec_estados.length mat2 →
      vec_estados.indexOf origen < vec_estados.length →
      (∀ dp ∈ l,
        vec_estados.indexOf (destinoMatriz origen f c dp.1) <
          vec_estados.length) →
      Forma vec_estados.length (l.foldl (pasoCelda origen f c) mat2) ∧
      sumaFilas (l.foldl (pasoCelda origen f c) mat2) =
        (sumaFilas mat2).set (vec_estados.indexOf origen)
          ((sumaFilas mat2).getD (vec_estados.indexOf origen) 0 +
            (l.map Prod.snd).sum) := by
  intro l
  induction l with
  | nil =>
    intro mat2 hf hi _
    refine ⟨hf, ?_⟩
    show sumaFilas mat2 = _
    rw [List.map_nil, List.sum_nil, add_zero]
    have : (sumaFilas mat2).set (vec_estados.indexOf origen)
        ((sumaFilas mat2).getD (vec_estados.indexOf origen) 0) =
        sumaFilas mat2 := set_getD_self _ _
    rw [this]
  | cons dp rest ih =>
    intro mat2 hf hi hj
    simp only [List.foldl_cons]
    have hjdp := hj dp (List.mem_cons_self dp rest)
    have hrow : (mat2.getD (vec_estados.indexOf origen) []).length =
        vec_estados.length := forma_getD _ mat2 _ hf hi
    have hf3 : Forma vec_estados.length (pasoCelda origen f c mat2 dp) := by
      apply forma_set _ _ _ _ hf
      rw [List.length_set]
      exact hrow
    obtain ⟨hfR, hsR⟩ := ih (pasoCelda origen f c mat2 dp) hf3 hi
      (fun x hx => hj x (List.mem_cons_of_mem dp hx))
    refine ⟨hfR, ?_⟩
    rw [hsR]
    have hs3 : sumaFilas (pasoCelda origen f c mat2 dp) =
        (sumaFilas mat2).set (vec_estados.indexOf origen)
          ((sumaFilas mat2).getD (vec_estados.indexOf origen) 0 + dp.2) := by
      unfold pasoCelda sumaFilas
      rw [map_sum_set]
      have := sum_set_add (mat2.getD (vec_estados.indexOf origen) [])
        (vec_estados.indexOf (destinoMatriz origen f c dp.1)) dp.2
        (by rw [hrow]; exact hjdp)
      rw [this, getD_map_sum]
    rw [hs3]
    have hlen : vec_estados.indexOf origen < (sumaFilas mat2).length := by
      unfold sumaFilas
      rw [List.length_map, hf.1]
      exact hi
    rw [show ((sumaFilas mat2).set (vec_estados.indexOf origen)
        ((sumaFilas mat2).getD (vec_estados.indexOf origen) 0 + dp.2)).getD
        (vec_estados.indexOf origen) 0 =
        (sumaFilas mat2).getD (vec_estados.indexOf origen) 0 + dp.2 from
      getD_set_self _ _ _ 0 hlen]
    rw [List.set_set, List.map_cons, List.sum_cons, add_assoc]

theorem vec_pos_ok :
    ∀ s ∈ vec_estados, obtener_posicion s = .ok (posicionDe s) := by
  decide

theorem vec_indexOf_destino_lt :
    ∀ s ∈ vec_estados, ∀ d ∈ (["N", "S", "E", "O"] : List Accion),
      vec_estados.indexOf
        (destinoMatriz s (posicionDe s).1 (posicionDe s).2 d) <
        vec_estados.length := by
  decide

/-- Outer fold: each visited origin adds total mass 1 to its own row sum. -/
theorem sumaFilas_pasoOrigen_fold (a : String) (la : List (Accion × ℚ))
    (hla : prob_transicion.lookup a = some la)
    (hdir : ∀ dp ∈ la, dp.1 ∈ (["N", "S", "E", "O"] : List Accion))
    (hsum : (la.map Prod.snd).sum = 1) :
    ∀ (l : List Estado) (mat : List (List ℚ)),
      (∀ s ∈ l, s ∈ vec_estados) → Forma vec_estados.length mat →
      Forma vec_estados.length (l.foldl (pasoOrigen a) mat) ∧
      sumaFilas (l.foldl (pasoOrigen a) mat) =
        (l.map (fun s => vec_estados.indexOf s)).foldl
          (fun sums k => sums.set k (sums.getD k 0 + 1)) (sumaFilas mat) := by
  intro l
  induction l with
  | nil => intro mat _ hf; exact ⟨hf, rfl⟩
  | cons s rest ih =>
    intro mat hmem hf
    have hs : s ∈ vec_estados := hmem s (List.mem_cons_self s rest)
    have hpaso : pasoOrigen a mat s =
        la.foldl (pasoCelda s (posicionDe s).1 (posicionDe s).2) mat := by
      unfold pasoOrigen
      rw [vec_pos_ok s hs, hla]
    have hi : vec_estados.indexOf s < vec_estados.length :=
      List.indexOf_lt_length.mpr hs
    obtain ⟨hf2, hs2⟩ := sumaFilas_pasoCelda_fold s (posicionDe s).1
      (posicionDe s).2 la mat hf hi
      (fun dp hdp => vec_indexOf_destino_lt s hs dp.1 (hdir dp hdp))
    obtain ⟨hfR, hsR⟩ := ih (pasoOrigen a mat s)
      (fun x hx => hmem x (List.mem_cons_of_mem s hx))
      (by rw [hpaso]; exact hf2)
    simp only [List.foldl_cons, List.map_cons]
    refine ⟨hfR, ?_⟩
    rw [hsR]
    congr 1
    rw [hpaso, hs2, hsum]

/-- Folding "+1 at index k" over duplicate-free indices, pointwise. -/
theorem fold_set_uno :
    ∀ (ks : List Nat) (sums : List ℚ), ks.Nodup →
      (ks.foldl (fun sums k => sums.set k (sums.getD k 0 + 1)) sums).length =
        sums.length ∧
      ∀ j, (ks.foldl (fun sums k => sums.set k (sums.getD k 0 + 1))
          sums).getD j 0 =
        if j ∈ ks ∧ j < sums.length then sums.getD j 0 + 1
        else sums.getD j 0 := by
  intro ks
  induction ks with
  | nil =>
    intro sums _
    refine ⟨rfl, fun j => ?_⟩
    simp
  | cons k rest ih =>
    intro sums hnd
    have hk : k ∉ rest := (List.nodup_cons.mp hnd).1
    obtain ⟨ihl, ihp⟩ := ih (sums.set k (sums.getD k 0 + 1))
      (List.nodup_cons.mp hnd).2
    simp only [List.foldl_cons]
    have hlset : (sums.set k (sums.getD k 0 + 1)).length = sums.length :=
      List.length_set _ _ _
    refine ⟨by rw [ihl, hlset], fun j => ?_⟩
    rw [ihp j, hlset]
    by_cases hjr : j ∈ rest
    · have hjk : j ≠ k := fun h => hk (h ▸ hjr)
      by_cases hjl : j < sums.length
      · rw [if_pos ⟨hjr, hjl⟩, if_pos ⟨List.mem_cons_of_mem k hjr, hjl⟩,
          getD_set_ne _ _ _ _ 0 (fun h => hjk h.symm)]
      · rw [if_neg (fun h => hjl h.2), if_neg (fun h => hjl h.2),
          getD_set_ne _ _ _ _ 0 (fun h => hjk h.symm)]
    · by_cases hjk : j = k
      · subst hjk
        rw [if_neg (fun h => hjr h.1)]
        by_cases hjl : j < sums.length
        · rw [if_pos ⟨List.mem_cons_self j rest, hjl⟩,
            getD_set_self _ _ _ 0 hjl]
        · rw [if_neg (fun h => hjl h.2),
            set_fuera_de_rango _ _ _ (Nat.le_of_not_lt hjl)]
      · rw [if_neg (fun h => hjr h.1),
          getD_set_ne _ _ _ _ 0 (fun h => hjk h.symm)]
        by_cases hjl : j < sums.length
        · rw [if_neg]
          intro h
          rcases List.mem_cons.mp h.1 with h' | h'
          · exact hjk h'
          · exact hjr h'
        · rw [if_neg (fun h => hjl h.2)]

theorem vec_map_indexOf :
    vec_estados.map (fun s => vec_estados.indexOf s) =
      List.range vec_estados.length := by
  decide

/-- All row sums of the matrix for a known action are exactly 1. -/
theorem sumaFilas_matriz_general (a : String) (la : List (Accion × ℚ))
    (hla : prob_transicion.lookup a = some la)
    (hdir : ∀ dp ∈ la, dp.1 ∈ (["N", "S", "E", "O"] : List Accion))
    (hsum : (la.map Prod.snd).sum = 1) :
    sumaFilas (construir_matriz_transicion a) =
      List.replicate vec_estados.length 1 := by
  unfold construir_matriz_transicion
  have hforma0 : Forma vec_estados.length
      (List.replicate vec_estados.length
        (List.replicate vec_estados.length (0 : ℚ))) := by
    constructor
    · simp
    · intro row hrow
      rw [List.eq_of_mem_replicate hrow]
      simp
  obtain ⟨_, hsums⟩ := sumaFilas_pasoOrigen_fold a la hla hdir hsum
    vec_estados _ (fun s hs => hs) hforma0
  rw [hsums]
  have hinit : sumaFilas (List.replicate vec_estados.length
      (List.replicate vec_estados.length (0 : ℚ))) =
      List.replicate vec_estados.length 0 := by
    unfold sumaFilas
    rw [List.map_replicate]
    simp
  rw [hinit, vec_map_indexOf]
  obtain ⟨hlen, hpt⟩ := fold_set_uno (List.range vec_estados.length)
    (List.replicate vec_estados.length 0) (List.nodup_range _)
  apply List.ext_getElem
  · rw [hlen]
    simp
  · intro i h1 h2
    have hi : i < vec_estados.length := by
      simpa using h2
    have hgd := hpt i
    rw [if_pos ⟨List.mem_range.mpr hi, by simpa using hi⟩] at hgd
    rw [← List.getD_eq_getElem _ 0 h1, ← List.getD_eq_getElem _ 0 h2, hgd]
    rw [List.getD_eq_getElem _ 0 (by simpa using hi),
      List.getD_eq_getElem _ 0 (by simpa using hi)]
    simp

end Robotica

namespace Robotica

/-- C9: `mover` leaves the coordinates unchanged on every action string
outside {N, S, E, O}, and displaces them by exactly one cell in the
corresponding cardinal direction on each of the four valid actions. -/
theorem mover_accion_invalida_no_op_y_validas_desplazan (fila col : Nat) :
    (∀ a : Accion, a ∉ acciones → mover fila col a = ((fila : ℤ), (col : ℤ))) ∧
    mover fila col "N" = ((fila : ℤ) - 1, (col : ℤ)) ∧
    mover fila col "S" = ((fila : ℤ) + 1, (col : ℤ)) ∧
    mover fila col "E" = ((fila : ℤ), (col : ℤ) + 1) ∧
    mover fila col "O" = ((fila : ℤ), (col : ℤ) - 1) := by
  refine ⟨?_, rfl, rfl, rfl, rfl⟩
  intro a ha
  simp only [acciones, List.mem_cons, List.not_mem_nil, or_false] at ha
  push_neg at ha
  obtain ⟨h1, h2, h3, h4⟩ := ha
  unfold mover
  split <;> simp_all

/-- Witness for `mover_accion_invalida_no_op_y_validas_desplazan` at
(fila, col) = (3, 5) and the unknown action "X". -/
theorem mover_accion_invalida_witness :
    ("X" : Accion) ∉ acciones ∧ mover 3 5 "X" = ((3 : ℤ), (5 : ℤ)) := by
  refine ⟨by decide, ?_⟩
  exact (mover_accion_invalida_no_op_y_validas_desplazan 3 5).1 "X" (by decide)

/-- C2: for 0 < λ < 1 and ε > 0, the solver loop reaches a sweep whose
sup-norm delta (taken over the non-goal (state, action) pairs, see
`barrido_snd`/`deltaLocal`) is ≤ ε, and with that much fuel the loop
returns; the model hypotheses say each action's outcome probabilities are
nonnegative with sum at most 1, which both the default model and every
catalogue noise model satisfy. -/
theorem q_value_iteration_loop_termina (lam eps : ℚ) (m : Modelo)
    (h0 : 0 < lam) (h1 : lam < 1) (he : 0 < eps)
    (hm : ∀ a ∈ acciones,
      (∀ dp ∈ m a, 0 ≤ dp.2) ∧ ((m a).map Prod.snd).sum ≤ 1) :
    ∃ n, (barrido lam m (iterDesde lam m (fun _ _ => 0) n)).2 ≤ eps ∧
      ∃ out, qvi_loop lam eps m (n + 1) (fun _ _ => 0) = some out := by
  have hlam := le_of_lt h0
  by_cases hc : (barrido lam m (iterDesde lam m (fun _ _ => 0) 1)).2 ≤ eps
  · exact ⟨1, hc, qvi_loop_some lam eps m 2 _ ⟨1, by omega, hc⟩⟩
  · push_neg at hc
    have hd1p : 0 < (barrido lam m (iterDesde lam m (fun _ _ => 0) 1)).2 :=
      lt_trans he hc
    obtain ⟨K, hK⟩ := exists_pow_lt_of_lt_one (div_pos he hd1p) h1
    have hKd : lam ^ K *
        (barrido lam m (iterDesde lam m (fun _ _ => 0) 1)).2 < eps :=
      (lt_div_iff₀ hd1p).mp hK
    have hdec := delta_iter_decae lam m hlam hm K
    have hfin : (barrido lam m (iterDesde lam m (fun _ _ => 0) (K + 1))).2 ≤
        eps := le_of_lt (lt_of_le_of_lt hdec hKd)
    exact ⟨K + 1, hfin,
      qvi_loop_some lam eps m (K + 2) _ ⟨K + 1, by omega, hfin⟩⟩

/-- The default model is nonnegative and (sub)stochastic. -/
theorem modelo_base_ok : ∀ a ∈ acciones,
    (∀ dp ∈ modelo_base a, 0 ≤ dp.2) ∧
    ((modelo_base a).map Prod.snd).sum ≤ 1 := by
  intro a ha
  fin_cases ha <;>
    · constructor
      · intro dp hdp
        simp [modelo_base, modeloFn, prob_transicion, List.lookup] at hdp
        rcases hdp with h | h | h <;> rw [h] <;> norm_num
      · simp [modelo_base, modeloFn, prob_transicion, List.lookup]
        norm_num

/-- Witness for `q_value_iteration_loop_termina` at λ = 1/2, ε = 1 and the
default model. -/
theorem q_value_iteration_loop_termina_witness :
    0 < (1/2 : ℚ) ∧ (1/2 : ℚ) < 1 ∧ 0 < (1 : ℚ) ∧
    (∀ a ∈ acciones,
      (∀ dp ∈ modelo_base a, 0 ≤ dp.2) ∧
      ((modelo_base a).map Prod.snd).sum ≤ 1) ∧
    ∃ n, (barrido (1/2) modelo_base
        (iterDesde (1/2) modelo_base (fun _ _ => 0) n)).2 ≤ 1 ∧
      ∃ out, qvi_loop (1/2) 1 modelo_base (n + 1) (fun _ _ => 0) = some out :=
  ⟨by norm_num, by norm_num, by norm_num, modelo_base_ok,
    q_value_iteration_loop_termina (1/2) 1 modelo_base (by norm_num)
      (by norm_num) (by norm_num) modelo_base_ok⟩

/-! ### Runs used to settle the goal-state and determinism claims -/

theorem qvi_loop_paso (lam eps : ℚ) (m : Modelo) (fuel : Nat) (q : QTable) :
    qvi_loop lam eps m (fuel + 1) q =
      if (barrido lam m q).2 > eps then
        qvi_loop lam eps m fuel (barrido lam m q).1
      else some q := rfl

theorem q_value_iteration_ord_eq (ord : Estado → List Accion) (fuel : Nat)
    (lam : ℚ) (eps : Option ℚ) (mo : Option Modelo) :
    q_value_iteration_ord ord fuel lam eps mo =
      match qvi_loop lam (eps.getD UMBRAL_CONVERGENCIA) (mo.getD modelo_base)
          fuel (fun _ _ => 0) with
      | none => none
      | some q => some (q, (derivar ord q).1, (derivar ord q).2) := rfl

theorem qvi_loop_conserva_meta (lam eps : ℚ) (m : Modelo) :
    ∀ (fuel : Nat) (Q out : QTable),
      (∀ a ∈ acciones, Q ESTADO_META a = recompensa ESTADO_META) →
      qvi_loop lam eps m fuel Q = some out →
      ∀ a ∈ acciones, out ESTADO_META a = recompensa ESTADO_META := by
  intro fuel
  induction fuel with
  | zero =>
    intro Q out _ h
    simp [qvi_loop] at h
  | succ n ih =>
    intro Q out hQ h
    rw [qvi_loop_paso] at h
    by_cases hd : (barrido lam m Q).2 > eps
    · rw [if_pos hd] at h
      exact ih _ out (fun a ha => barrido_meta lam m Q a ha) h
    · rw [if_neg hd] at h
      injection h with h'
      subst h'
      exact hQ

/-- With ε = 1/2 the loop exits on its very first sweep (delta = 1/2 is not
strictly above ε) and returns the untouched all-zero initial table. -/
theorem qvi_ord_eps_media (ord : Estado → List Accion) :
    q_value_iteration_ord ord 1 (9/10) (some (1/2)) none =
      some ((fun _ _ => 0), (derivar ord (fun _ _ => 0)).1,
        (derivar ord (fun _ _ => 0)).2) := by
  rw [q_value_iteration_ord_eq]
  have hloop : qvi_loop (9/10) ((some (1/2 : ℚ)).getD UMBRAL_CONVERGENCIA)
      ((none : Option Modelo).getD modelo_base) 1 (fun _ _ => 0) =
      some (fun _ _ => 0) := by
    show qvi_loop (9/10) (1/2) modelo_base (0 + 1) (fun _ _ => 0) = _
    rw [qvi_loop_paso, if_neg]
    rw [barrido_zero_delta]
    norm_num
  rw [hloop]

theorem abs_recompensa_le_diez (s : Estado) : |recompensa s| ≤ 10 := by
  unfold recompensa
  by_cases h1 : s = ESTADO_META
  · rw [if_pos h1]
    exact abs_le.mpr ⟨by norm_num, by norm_num⟩
  · rw [if_neg h1]
    by_cases h2 : s ∈ ESTADOS_PELIGRO
    · rw [if_pos h2]
      exact abs_le.mpr ⟨by norm_num, by norm_num⟩
    · rw [if_neg h2]
      exact abs_le.mpr ⟨by norm_num, by norm_num⟩

theorem barrido_uno_abs_le (lam : ℚ) (m : Modelo) (t : Estado) (a : Accion) :
    |(barrido lam m (fun _ _ => 0)).1 t a| ≤ 10 := by
  rw [barrido_fst]
  by_cases hcond : t ∈ listaEstados ∧ escribible t ∧ a ∈ acciones
  · rw [if_pos hcond, valorFila_zero lam m t hcond.2.1 a]
    exact abs_recompensa_le_diez t
  · rw [if_neg hcond]
    simp

/-- With λ = 1/100 and ε = 1/4 the loop converges at the second sweep
(the second delta is at most λ·10 = 1/10) and returns the first sweep's
table. -/
theorem qvi_loop_dos_converge :
    qvi_loop (1/100) (1/4) modelo_base 2 (fun _ _ => 0) =
      some ((barrido (1/100) modelo_base (fun _ _ => 0)).1) := by
  have hd2 : (barrido (1/100) modelo_base
      (barrido (1/100) modelo_base (fun _ _ => 0)).1).2 ≤ 1/4 := by
    apply barrido_delta_le _ _ _ _ (by norm_num)
    intro e he hc a ha
    obtain ⟨f, c, hpos⟩ : ∃ f c, obtener_posicion e = .ok (f, c) := by
      cases hpc : obtener_posicion e with
      | ok p =>
        obtain ⟨f, c⟩ := p
        exact ⟨f, c, rfl⟩
      | error msg =>
        have := hc.2.2
        rw [hpc] at this
        simp [Except.isOk, Except.toBool] at this
    have hfil : e ∈ estadosFiltrados := by
      unfold estadosFiltrados
      exact List.mem_filter.mpr ⟨he, by simpa using hc.1⟩
    have h1 : (barrido (1/100) modelo_base (fun _ _ => 0)).1 e a =
        q_final (1/100) modelo_base (fun _ _ => 0) e f c a := by
      rw [barrido_fst, if_pos ⟨he, ⟨hc.1, Or.inr hc.2.2⟩, ha⟩]
      unfold valorFila
      rw [if_neg hc.2.1, hpos]
    have h2 : valorFila (1/100) modelo_base
        ((barrido (1/100) modelo_base (fun _ _ => 0)).1) e a =
        q_final (1/100) modelo_base
          ((barrido (1/100) modelo_base (fun _ _ => 0)).1) e f c a := by
      unfold valorFila
      rw [if_neg hc.2.1, hpos]
    rw [h1, h2]
    have hstep := abs_q_final_sub_le (1/100) modelo_base (fun _ _ => 0)
      ((barrido (1/100) modelo_base (fun _ _ => 0)).1) 10 (by norm_num)
      (by norm_num) modelo_base_ok
      (fun t _ a' _ => by
        have hb := barrido_uno_abs_le (1/100) modelo_base t a'
        calc |(fun _ _ => (0:ℚ)) t a' -
              (barrido (1/100) modelo_base (fun _ _ => 0)).1 t a'|
            = |(barrido (1/100) modelo_base (fun _ _ => 0)).1 t a'| := by
              show |0 - _| = _
              rw [zero_sub, abs_neg]
          _ ≤ 10 := hb)
      e hfil f c hpos a ha
    refine le_trans hstep ?_
    norm_num
  show qvi_loop (1/100) (1/4) modelo_base (1 + 1) (fun _ _ => 0) = _
  rw [qvi_loop_paso, if_pos (by rw [barrido_zero_delta]; norm_num)]
  show qvi_loop (1/100) (1/4) modelo_base (0 + 1) _ = _
  rw [qvi_loop_paso, if_neg (not_lt.mpr hd2)]

/-- The λ = 1/100, ε = 1/4 run of the full solver. -/
theorem qvi_dos_eq :
    q_value_iteration 2 (1/100) (some (1/4)) none =
      some ((barrido (1/100) modelo_base (fun _ _ => 0)).1,
        (derivar (fun _ => acciones)
          ((barrido (1/100) modelo_base (fun _ _ => 0)).1)).1,
        (derivar (fun _ => acciones)
          ((barrido (1/100) modelo_base (fun _ _ => 0)).1)).2) := by
  unfold q_value_iteration
  rw [q_value_iteration_ord_eq]
  have : qvi_loop (1/100) ((some (1/4 : ℚ)).getD UMBRAL_CONVERGENCIA)
      ((none : Option Modelo).getD modelo_base) 2 (fun _ _ => 0) =
      some ((barrido (1/100) modelo_base (fun _ _ => 0)).1) :=
    qvi_loop_dos_converge
  rw [this]

/-- The ε = 1/2 run of the full solver under the canonical order. -/
theorem qvi_media_eq :
    q_value_iteration 1 (9/10) (some (1/2)) none =
      some ((fun _ _ => 0), (derivar (fun _ => acciones) (fun _ _ => 0)).1,
        (derivar (fun _ => acciones) (fun _ _ => 0)).2) :=
  qvi_ord_eps_media (fun _ => acciones)

/-- C3 counterexample: at the positive threshold ε = 1/2 (λ = 9/10, default
model) the loop already converges on the first sweep — whose delta is
exactly 1/2, not strictly above ε — and returns the untouched all-zero
table, so the value map assigns the goal 0, not its reward 10. -/
theorem v_meta_falla_con_eps_grande :
    (q_value_iteration 1 (9/10) (some (1/2)) none).map
        (fun r => r.2.2.lookup ESTADO_META) = some (some 0) ∧
    (some (0 : ℚ) : Option ℚ) ≠ some (recompensa ESTADO_META) := by
  constructor
  · rw [qvi_media_eq]
    simp only [Option.map_some']
    rw [derivar_eq (fun _ => acciones) (fun _ _ => 0)
      (fun e => by simp [acciones])]
    rw [lookup_map_self, if_pos meta_mem_filtrados]
    have hm : mejor acciones (fun _ _ => 0) ESTADO_META = some ("N", 0) :=
      mejor_const (fun _ _ => 0) ESTADO_META "N" ["S", "E", "O"] 0
        (fun a _ => rfl)
    simp [elegir, hm]
  · rw [recompensa_meta]
    simp only [ne_eq, Option.some.injEq]
    norm_num

/-- C3 (amended): for 0 < λ < 1, either model, and any threshold
0 < ε < 1/2 — below the universal first-sweep delta 1/2, so that at least
one real sweep is kept — every converged run's value map gives the goal
exactly its reward, V(M) = reward(M) = 10, and the goal contributes no term
to any sweep's delta (`deltaLocal` at the goal is empty, cf. `barrido_snd`). -/
theorem q_value_iteration_fija_v_meta (fuel : Nat) (lam eps : ℚ)
    (mo : Option Modelo) (qt : QTable) (pol : List (Estado × Accion))
    (v : List (Estado × ℚ)) (h0 : 0 < lam) (h1 : lam < 1)
    (he : 0 < eps) (he2 : eps < 1/2)
    (hrun : q_value_iteration fuel lam (some eps) mo = some (qt, pol, v)) :
    v.lookup ESTADO_META = some (recompensa ESTADO_META) ∧
    recompensa ESTADO_META = 10 ∧
    deltaLocal lam (mo.getD modelo_base) qt ESTADO_META = [] := by
  unfold q_value_iteration at hrun
  rw [q_value_iteration_ord_eq] at hrun
  cases hloop : qvi_loop lam ((some eps).getD UMBRAL_CONVERGENCIA)
      (mo.getD modelo_base) fuel (fun _ _ => 0) with
  | none =>
    rw [hloop] at hrun
    exact absurd hrun (by simp)
  | some qf =>
    rw [hloop] at hrun
    have h' := Option.some.inj hrun
    have hq : qt = qf := (congrArg Prod.fst h').symm
    have hv : v = (derivar (fun _ => acciones) qf).2 :=
      (congrArg (fun r => r.2.2) h').symm
    obtain ⟨n, rfl⟩ : ∃ n, fuel = n + 1 := by
      cases fuel with
      | zero => simp [qvi_loop] at hloop
      | succ n => exact ⟨n, rfl⟩
    rw [qvi_loop_paso, if_pos (by rw [barrido_zero_delta]; exact he2)] at hloop
    have hpin : ∀ a ∈ acciones, qf ESTADO_META a = recompensa ESTADO_META :=
      qvi_loop_conserva_meta lam _ (mo.getD modelo_base) n _ qf
        (fun a ha => barrido_meta lam (mo.getD modelo_base) (fun _ _ => 0) a ha)
        hloop
    refine ⟨?_, recompensa_meta, ?_⟩
    · rw [hv]
      rw [derivar_eq (fun _ => acciones) qf (fun e => by simp [acciones])]
      rw [lookup_map_self, if_pos meta_mem_filtrados]
      have hmej : mejor acciones qf ESTADO_META =
          some ("N", recompensa ESTADO_META) :=
        mejor_const qf ESTADO_META "N" ["S", "E", "O"] (recompensa ESTADO_META)
          (fun a ha => hpin a ha)
      simp [elegir, hmej]
    · unfold deltaLocal
      rw [if_neg]
      intro hc
      exact hc.2.1 rfl

/-- Witness for `q_value_iteration_fija_v_meta`: the λ = 1/100, ε = 1/4,
fuel 2 run under the default model. -/
theorem q_value_iteration_fija_v_meta_witness :
    0 < (1/100 : ℚ) ∧ (1/100 : ℚ) < 1 ∧ 0 < (1/4 : ℚ) ∧ (1/4 : ℚ) < 1/2 ∧
    ∃ qt pol v,
      q_value_iteration 2 (1/100) (some (1/4)) none = some (qt, pol, v) ∧
      (v.lookup ESTADO_META = some (recompensa ESTADO_META) ∧
       recompensa ESTADO_META = 10 ∧
       deltaLocal (1/100) ((none : Option Modelo).getD modelo_base) qt
         ESTADO_META = []) := by
  refine ⟨by norm_num, by norm_num, by norm_num, by norm_num,
    (barrido (1/100) modelo_base (fun _ _ => 0)).1, _, _, qvi_dos_eq, ?_⟩
  exact q_value_iteration_fija_v_meta 2 (1/100) (1/4) none _ _ _
    (by norm_num) (by norm_num) (by norm_num) (by norm_num) qvi_dos_eq

/-- C4 counterexample: the derivation loop only skips obstacles, so the
returned policy does contain an entry for the goal state (here the action
"N", the first scanned entry of its all-tied row). -/
theorem politica_asigna_accion_a_meta :
    (q_value_iteration 1 (9/10) (some (1/2)) none).map
        (fun r => r.2.1.lookup ESTADO_META) = some (some "N") ∧
    (some "N" : Option Accion) ≠ none := by
  constructor
  · rw [qvi_media_eq]
    simp only [Option.map_some']
    rw [derivar_eq (fun _ => acciones) (fun _ _ => 0)
      (fun e => by simp [acciones])]
    rw [lookup_map_self, if_pos meta_mem_filtrados]
    have hm : mejor acciones (fun _ _ => 0) ESTADO_META = some ("N", 0) :=
      mejor_const (fun _ _ => 0) ESTADO_META "N" ["S", "E", "O"] 0
        (fun a _ => rfl)
    simp [elegir, hm]
  · simp

/-- C4 (amended): the returned policy has exactly one entry for every
non-obstacle state, the goal INCLUDED: its key list is exactly the
duplicate-free visit-order list of non-obstacle states, which contains the
goal (the goal is assigned an action too). -/
theorem politica_una_entrada_por_no_obstaculo (fuel : Nat) (lam : ℚ)
    (eps : Option ℚ) (mo : Option Modelo) (qt : QTable)
    (pol : List (Estado × Accion)) (v : List (Estado × ℚ))
    (hrun : q_value_iteration fuel lam eps mo = some (qt, pol, v)) :
    pol.map Prod.fst = estadosFiltrados ∧ estadosFiltrados.Nodup ∧
    ESTADO_META ∈ estadosFiltrados := by
  unfold q_value_iteration at hrun
  rw [q_value_iteration_ord_eq] at hrun
  cases hloop : qvi_loop lam (eps.getD UMBRAL_CONVERGENCIA)
      (mo.getD modelo_base) fuel (fun _ _ => 0) with
  | none =>
    rw [hloop] at hrun
    exact absurd hrun (by simp)
  | some qf =>
    rw [hloop] at hrun
    have h' := Option.some.inj hrun
    have hp : pol = (derivar (fun _ => acciones) qf).1 :=
      (congrArg (fun r => r.2.1) h').symm
    refine ⟨?_, by decide, by decide⟩
    rw [hp, derivar_eq (fun _ => acciones) qf (fun e => by simp [acciones])]
    simp only [List.map_map]
    rw [show (Prod.fst ∘ fun e : Estado => (e, (elegir acciones qf e).1)) = id
      from rfl, List.map_id]

/-- Witness for `politica_una_entrada_por_no_obstaculo` at the ε = 1/2,
fuel 1 default run. -/
theorem politica_una_entrada_witness :
    ∃ qt pol v,
      q_value_iteration 1 (9/10) (some (1/2)) none = some (qt, pol, v) ∧
      (pol.map Prod.fst = estadosFiltrados ∧ estadosFiltrados.Nodup ∧
       ESTADO_META ∈ estadosFiltrados) := by
  refine ⟨(fun _ _ => 0), _, _, qvi_media_eq, ?_⟩
  exact politica_una_entrada_por_no_obstaculo 1 (9/10) (some (1/2)) none _ _ _
    qvi_media_eq

theorem foldl_max_mem {α : Type} [LinearOrder α] :
    ∀ (l : List α) (b : α), l.foldl max b = b ∨ l.foldl max b ∈ l := by
  intro l
  induction l with
  | nil => intro b; exact Or.inl rfl
  | cons x xs ih =>
    intro b
    simp only [List.foldl_cons]
    rcases ih (max b x) with h | h
    · rcases max_choice b x with hm | hm
      · exact Or.inl (h.trans hm)
      · exact Or.inr (List.mem_cons.mpr (Or.inl (h.trans hm)))
    · exact Or.inr (List.mem_cons_of_mem x h)

theorem fold_max_ni_mem : ∀ (l : List ℚ), l ≠ [] → fold_max_ni l ∈ l := by
  intro l hl
  cases l with
  | nil => exact absurd rfl hl
  | cons x xs =>
    show xs.foldl max x ∈ x :: xs
    rcases foldl_max_mem xs x with h | h
    · rw [h]
      exact List.mem_cons_self x xs
    · exact List.mem_cons_of_mem x h

theorem le_fold_max_ni : ∀ (l : List ℚ) (x : ℚ), x ∈ l → x ≤ fold_max_ni l := by
  intro l x hx
  cases l with
  | nil => cases hx
  | cons y ys =>
    show x ≤ ys.foldl max y
    rcases List.mem_cons.mp hx with h | h
    · exact h ▸ foldl_max_le_init ys y
    · exact foldl_max_le_of_mem h y

theorem fold_max_ni_perm {l1 l2 : List ℚ} (h : l1.Perm l2) :
    fold_max_ni l1 = fold_max_ni l2 := by
  cases l1 with
  | nil =>
    rw [← h.nil_eq]
  | cons x xs =>
    have h1 : (x :: xs : List ℚ) ≠ [] := by simp
    have h2 : l2 ≠ [] := by
      intro he
      rw [he] at h
      exact h1 h.eq_nil
    apply le_antisymm
    · exact le_fold_max_ni l2 _ (h.mem_iff.mp (fold_max_ni_mem _ h1))
    · exact le_fold_max_ni (x :: xs) _ (h.mem_iff.mpr (fold_max_ni_mem l2 h2))

/-- The value settled by the argmax scan does not depend on the iteration
order (the chosen action may). -/
theorem elegir_snd_perm (q : QTable) (s : Estado) (l1 l2 : List Accion)
    (hp : l1.Perm l2) (h1 : l1 ≠ []) :
    (elegir l1 q s).2 = (elegir l2 q s).2 := by
  have h2 : l2 ≠ [] := by
    intro he
    rw [he] at hp
    exact h1 hp.eq_nil
  cases l1 with
  | nil => exact absurd rfl h1
  | cons x xs =>
    cases l2 with
    | nil => exact absurd rfl h2
    | cons y ys =>
      obtain ⟨a1, e1⟩ := mejor_snd_eq q s x xs
      obtain ⟨a2, e2⟩ := mejor_snd_eq q s y ys
      unfold elegir
      rw [e1, e2]
      simp only [Option.getD_some]
      exact fold_max_ni_perm (hp.map (q s))

/-- C5 counterexample: with the table rows all tied (the ε = 1/2 run keeps
the all-zero table; the goal row is tied in every converged run), two runs
whose argmax scans iterate the unordered row in different (both valid)
orders assign different actions to the goal state — the policies differ. -/
theorem determinismo_empate_depende_del_orden :
    (∀ s : Estado, (acciones : List Accion).Perm acciones) ∧
    (∀ s : Estado, (["S", "N", "E", "O"] : List Accion).Perm acciones) ∧
    (q_value_iteration_ord (fun _ => acciones) 1 (9/10) (some (1/2)) none).map
        (fun r => r.2.1.lookup ESTADO_META) ≠
      (q_value_iteration_ord (fun _ => ["S", "N", "E", "O"]) 1 (9/10)
          (some (1/2)) none).map
        (fun r => r.2.1.lookup ESTADO_META) := by
  refine ⟨fun _ => List.Perm.refl _,
    fun _ => List.Perm.swap "N" "S" ["E", "O"], ?_⟩
  rw [qvi_ord_eps_media, qvi_ord_eps_media]
  simp only [Option.map_some']
  rw [derivar_eq (fun _ => acciones) (fun _ _ => 0)
      (fun e => by simp [acciones]),
    derivar_eq (fun _ => ["S", "N", "E", "O"]) (fun _ _ => 0)
      (fun e => by simp)]
  rw [lookup_map_self, lookup_map_self, if_pos meta_mem_filtrados,
    if_pos meta_mem_filtrados]
  have hm1 : mejor acciones (fun _ _ => 0) ESTADO_META = some ("N", 0) :=
    mejor_const (fun _ _ => 0) ESTADO_META "N" ["S", "E", "O"] 0 (fun a _ => rfl)
  have hm2 : mejor ["S", "N", "E", "O"] (fun _ _ => 0) ESTADO_META =
      some ("S", 0) :=
    mejor_const (fun _ _ => 0) ESTADO_META "S" ["N", "E", "O"] 0 (fun a _ => rfl)
  simp [elegir, hm1, hm2]

/-- C5 (amended): the solver is deterministic in everything except the
argmax tie-breaks: for any two row iteration orders that are permutations
of each other, the two runs return the same Q-table, the same value map,
and policies over the same key list; the prescribed actions themselves may
differ at tied rows, as `determinismo_empate_depende_del_orden` shows. -/
theorem q_value_iteration_ord_invariante (ord1 ord2 : Estado → List Accion)
    (fuel : Nat) (lam : ℚ) (eps : Option ℚ) (mo : Option Modelo)
    (hperm : ∀ s, (ord1 s).Perm (ord2 s)) (hne : ∀ s, ord1 s ≠ []) :
    ((q_value_iteration_ord ord1 fuel lam eps mo).map (fun r => r.1) =
      (q_value_iteration_ord ord2 fuel lam eps mo).map (fun r => r.1)) ∧
    ((q_value_iteration_ord ord1 fuel lam eps mo).map (fun r => r.2.2) =
      (q_value_iteration_ord ord2 fuel lam eps mo).map (fun r => r.2.2)) ∧
    ((q_value_iteration_ord ord1 fuel lam eps mo).map
        (fun r => r.2.1.map Prod.fst) =
      (q_value_iteration_ord ord2 fuel lam eps mo).map
        (fun r => r.2.1.map Prod.fst)) := by
  have hne2 : ∀ s, ord2 s ≠ [] := by
    intro s he
    have hp := hperm s
    rw [he] at hp
    exact hne s hp.eq_nil
  rw [q_value_iteration_ord_eq ord1, q_value_iteration_ord_eq ord2]
  cases hloop : qvi_loop lam (eps.getD UMBRAL_CONVERGENCIA)
      (mo.getD modelo_base) fuel (fun _ _ => 0) with
  | none => simp
  | some qf =>
    simp only [Option.map_some']
    refine ⟨by trivial, ?_, ?_⟩
    · rw [derivar_eq ord1 qf hne, derivar_eq ord2 qf hne2]
      simp only [Option.some.injEq]
      apply List.map_congr_left
      intro e _
      rw [elegir_snd_perm qf e (ord1 e) (ord2 e) (hperm e) (hne e)]
    · rw [derivar_eq ord1 qf hne, derivar_eq ord2 qf hne2]
      simp only [Option.some.injEq, List.map_map]
      rw [show (Prod.fst ∘ fun e : Estado => (e, (elegir (ord1 e) qf e).1)) =
          id from rfl,
        show (Prod.fst ∘ fun e : Estado => (e, (elegir (ord2 e) qf e).1)) =
          id from rfl]

/-- Witness for `q_value_iteration_ord_invariante` at the canonical order
versus the order that scans "S" first. -/
theorem q_value_iteration_ord_invariante_witness :
    (∀ s : Estado, (acciones : List Accion).Perm ["S", "N", "E", "O"]) ∧
    (∀ s : Estado, (acciones : List Accion) ≠ []) ∧
    (((q_value_iteration_ord (fun _ => acciones) 1 (9/10) (some (1/2))
          none).map (fun r => r.1) =
      (q_value_iteration_ord (fun _ => ["S", "N", "E", "O"]) 1 (9/10)
          (some (1/2)) none).map (fun r => r.1)) ∧
    ((q_value_iteration_ord (fun _ => acciones) 1 (9/10) (some (1/2))
          none).map (fun r => r.2.2) =
      (q_value_iteration_ord (fun _ => ["S", "N", "E", "O"]) 1 (9/10)
          (some (1/2)) none).map (fun r => r.2.2)) ∧
    ((q_value_iteration_ord (fun _ => acciones) 1 (9/10) (some (1/2))
          none).map (fun r => r.2.1.map Prod.fst) =
      (q_value_iteration_ord (fun _ => ["S", "N", "E", "O"]) 1 (9/10)
          (some (1/2)) none).map (fun r => r.2.1.map Prod.fst))) :=
  ⟨fun _ => List.Perm.swap "S" "N" ["E", "O"],
   fun _ => by simp [acciones],
   q_value_iteration_ord_invariante (fun _ => acciones)
     (fun _ => ["S", "N", "E", "O"]) 1 (9/10) (some (1/2)) none
     (fun _ => List.Perm.swap "S" "N" ["E", "O"])
     (fun _ => by simp [acciones])⟩

/-- C7: for each of the four actions, every row of the dense transition
matrix sums to exactly 1 (hence within 1e-6): obstacle / out-of-bounds
outcomes fold their mass back to the origin's own column, and the additive
`+=` accumulation (`pasoCelda`) conserves each origin row's total mass. -/
theorem matriz_transicion_filas_suman_uno :
    ∀ a ∈ (["N", "S", "E", "O"] : List String),
      ∀ fila ∈ construir_matriz_transicion a,
        fila.sum = 1 ∧ |fila.sum - 1| ≤ 1/1000000 := by
  intro a ha fila hfila
  have hsums : sumaFilas (construir_matriz_transicion a) =
      List.replicate vec_estados.length 1 := by
    fin_cases ha
    · refine sumaFilas_matriz_general "N" _ rfl ?_ ?_
      · intro dp hdp
        simp only [List.mem_cons, List.not_mem_nil, or_false] at hdp
        rcases hdp with h | h | h <;> rw [h] <;> decide
      · simp
        norm_num
    · refine sumaFilas_matriz_general "S" _ rfl ?_ ?_
      · intro dp hdp
        simp only [List.mem_cons, List.not_mem_nil, or_false] at hdp
        rcases hdp with h | h | h <;> rw [h] <;> decide
      · simp
        norm_num
    · refine sumaFilas_matriz_general "E" _ rfl ?_ ?_
      · intro dp hdp
        simp only [List.mem_cons, List.not_mem_nil, or_false] at hdp
        rcases hdp with h | h | h <;> rw [h] <;> decide
      · simp
        norm_num
    · refine sumaFilas_matriz_general "O" _ rfl ?_ ?_
      · intro dp hdp
        simp only [List.mem_cons, List.not_mem_nil, or_false] at hdp
        rcases hdp with h | h | h <;> rw [h] <;> decide
      · simp
        norm_num
  have hmem : fila.sum ∈ sumaFilas (construir_matriz_transicion a) :=
    List.mem_map_of_mem List.sum hfila
  rw [hsums] at hmem
  have h1 : fila.sum = 1 := List.eq_of_mem_replicate hmem
  refine ⟨h1, ?_⟩
  rw [h1]
  norm_num

/-- Witness for `matriz_transicion_filas_suman_uno`: the "N" matrix's first
row. -/
theorem matriz_transicion_filas_witness :
    "N" ∈ (["N", "S", "E", "O"] : List String) ∧
    (construir_matriz_transicion "N").getD 0 [] ∈
      construir_matriz_transicion "N" ∧
    (((construir_matriz_transicion "N").getD 0 []).sum = 1 ∧
      |((construir_matriz_transicion "N").getD 0 []).sum - 1| ≤ 1/1000000) := by
  have hsums : sumaFilas (construir_matriz_transicion "N") =
      List.replicate vec_estados.length 1 := by
    refine sumaFilas_matriz_general "N" _ rfl ?_ ?_
    · intro dp hdp
      simp only [List.mem_cons, List.not_mem_nil, or_false] at hdp
      rcases hdp with h | h | h <;> rw [h] <;> decide
    · simp
      norm_num
  have hlen : (construir_matriz_transicion "N").length = vec_estados.length := by
    have := congrArg List.length hsums
    simpa [sumaFilas] using this
  have hpos : 0 < (construir_matriz_transicion "N").length := by
    rw [hlen]
    decide
  have hmem : (construir_matriz_transicion "N").getD 0 [] ∈
      construir_matriz_transicion "N" := by
    rw [List.getD_eq_getElem _ _ hpos]
    exact List.getElem_mem hpos
  exact ⟨by decide, hmem,
    matriz_transicion_filas_suman_uno "N" (by decide) _ hmem⟩

theorem lookup_accion_desconocida (a : String)
    (h : a ∉ (["N", "S", "E", "O"] : List String)) :
    prob_transicion.lookup a = none := by
  simp only [List.mem_cons, List.not_mem_nil, or_false, not_or] at h
  obtain ⟨h1, h2, h3, h4⟩ := h
  simp [prob_transicion, List.lookup, beq_false_of_ne h1,
    beq_false_of_ne h2, beq_false_of_ne h3, beq_false_of_ne h4]

/-- C10: for an action string outside {N, S, E, O} the model lookup yields
nothing, every fold step leaves the matrix untouched, and the function
silently returns the all-zero |S|×|S| matrix — every row sums to 0, not 1. -/
theorem matriz_accion_desconocida_cero (a : String)
    (h : a ∉ (["N", "S", "E", "O"] : List String)) :
    construir_matriz_transicion a =
      List.replicate vec_estados.length
        (List.replicate vec_estados.length 0) ∧
    ∀ fila ∈ construir_matriz_transicion a, fila.sum = 0 := by
  have hnone := lookup_accion_desconocida a h
  have hfold : ∀ (l : List Estado) (mat : List (List ℚ)),
      l.foldl (pasoOrigen a) mat = mat := by
    intro l
    induction l with
    | nil => intro mat; rfl
    | cons s rest ih =>
      intro mat
      simp only [List.foldl_cons]
      have hstep : pasoOrigen a mat s = mat := by
        unfold pasoOrigen
        cases hp : obtener_posicion s with
        | error msg => rfl
        | ok p =>
          obtain ⟨f, c⟩ := p
          rw [hnone]
      rw [hstep, ih]
  have h1 : construir_matriz_transicion a =
      List.replicate vec_estados.length
        (List.replicate vec_estados.length 0) := by
    unfold construir_matriz_transicion
    exact hfold vec_estados _
  refine ⟨h1, ?_⟩
  intro fila hfila
  rw [h1] at hfila
  rw [List.eq_of_mem_replicate hfila]
  simp

/-- Witness for `matriz_accion_desconocida_cero` at the unknown action "X". -/
theorem matriz_accion_desconocida_witness :
    "X" ∉ (["N", "S", "E", "O"] : List String) ∧
    (construir_matriz_transicion "X" =
      List.replicate vec_estados.length
        (List.replicate vec_estados.length 0) ∧
    ∀ fila ∈ construir_matriz_transicion "X", fila.sum = 0) :=
  ⟨by decide, matriz_accion_desconocida_cero "X" (by decide)⟩

/-! ### Robustness evaluation (robustness.rs `evaluar_robustez`) -/

/-- Pointwise functional update of a V table. -/
def actualizarV (v : Estado → ℚ) (s : Estado) (x : ℚ) : Estado → ℚ :=
  fun s' => if s' = s then x else v s'

/-- Modelled from the spec: the Bellman backup Q(s,a) of value iteration
(§4.3), `Q(s,a) = reward(s) + λ · Σ_d P(d|a) · V(dest(s,d))`, with the
invalid-move-stays-in-place rule. -/
def vi_q (lam : ℚ) (m : Modelo) (v : Estado → ℚ) (s : Estado) (f c : Nat)
    (a : Accion) : ℚ :=
  recompensa s + lam * ((m a).map (fun dp => dp.2 * v (destino s f c dp.1))).sum

/-- Modelled from the spec: §4.3's per-state action scan in the fixed order
{N, S, E, O} with strict `>` (ties keep the first maximal action). -/
def mejorVI (lam : ℚ) (m : Modelo) (v : Estado → ℚ) (s : Estado) (f c : Nat) :
    Accion × ℚ :=
  (["S", "E", "O"] : List Accion).foldl
    (fun pr a =>
      let qa := vi_q lam m v s f c a
      if qa > pr.2 then (a, qa) else pr)
    ("N", vi_q lam m v s f c "N")

/-- Modelled from the spec: one synchronous, double-buffered value-iteration
sweep (§4.3): the goal's value is pinned to its reward with no action; every
other state gets `V_new(s) = max_a Q(s,a)` and `π(s) = argmax_a Q(s,a)`; the
sweep's sup-norm delta is accumulated. -/
def vi_paso (lam : ℚ) (m : Modelo) (v : Estado → ℚ) :
    (Estado → ℚ) × List (Estado × Accion) × ℚ :=
  listaEstados.foldl (fun acc estado =>
    if estado ∈ OBSTACULOS then acc
    else if estado = ESTADO_META then
      (actualizarV acc.1 estado (recompensa estado), acc.2.1,
        max acc.2.2 |recompensa estado - v estado|)
    else
      match obtener_posicion estado with
      | .error _ => acc
      | .ok (f, c) =>
        let pr := mejorVI lam m v estado f c
        (actualizarV acc.1 estado pr.2, acc.2.1 ++ [(estado, pr.1)],
          max acc.2.2 |pr.2 - v estado|))
    (v, [], 0)

/-- Modelled from the spec: §4.3's convergence loop (delta ≤ ε stops), with
an explicit fuel standing in for the source's unbounded loop. -/
def vi_loop (lam eps : ℚ) (m : Modelo) :
    Nat → (Estado → ℚ) → (Estado → ℚ) × List (Estado × Accion)
  | 0, v =>
    let p := vi_paso lam m v
    (p.1, p.2.1)
  | fuel + 1, v =>
    let p := vi_paso lam m v
    if p.2.2 ≤ eps then (p.1, p.2.1) else vi_loop lam eps m fuel p.1

/-- Modelled from the spec: `value_iteration` (§4.3) is called by
robustness.rs but its definition is not among the sources here (the source
tree carries only the Q-value variant).  It runs value-iteration sweeps to
convergence and returns the value map and the deterministic policy; the
default model is used when none is supplied. -/
def value_iteration (fuel : Nat) (lam eps : ℚ) (modelo : Option Modelo) :
    (List (Estado × ℚ)) × List (Estado × Accion) :=
  let m := modelo.getD modelo_base
  let r := vi_loop lam eps m fuel (fun _ => 0)
  ((listaEstados.filter (fun e => decide (e ∉ OBSTACULOS))).map
      (fun e => (e, r.1 e)),
    r.2)

/-- robustness.rs line 100: `format!("{}%", (centro * 100.0) as usize)`;
the catalogue's centre probabilities scale to whole numbers, where the f64
truncation and the exact floor agree. -/
def etiqueta (c : ℚ) : String := toString (⌊c * 100⌋).toNat ++ "%"

/-- robustness.rs `evaluar_robustez`, with the solver's fuel made explicit:
one (label, difference-count) pair per catalogue noise triple, in catalogue
order; a baseline state missing from the adapted policy counts as changed. -/
def evaluar_robustez (fuel : Nat) (politicaBase : List (Estado × Accion))
    (lam : ℚ) : List (String × Nat) :=
  ARR_TPL_F64X3_MODELOS_RUIDO.foldl (fun acc t =>
    let etiq := etiqueta t.2.1
    let modeloRuido := construir_modelo_ruido t.1 t.2.1 t.2.2
    let adaptada :=
      (value_iteration fuel lam (1/100) (some (modeloFn modeloRuido))).2
    let cambios := (politicaBase.filter (fun p =>
      match adaptada.lookup p.1 with
      | some a' => a' != p.2
      | none => true)).length
    acc ++ [(etiq, cambios)]) []

/-- A baseline entry counts as changed: the adapted policy maps its state to
a different action, or not at all. -/
def difiere (adaptada : List (Estado × Accion)) (p : Estado × Accion) : Prop :=
  match adaptada.lookup p.1 with
  | some a' => a' ≠ p.2
  | none => True

instance (adaptada : List (Estado × Accion)) (p : Estado × Accion) :
    Decidable (difiere adaptada p) := by
  unfold difiere
  cases adaptada.lookup p.1 with
  | none => exact inferInstance
  | some a' => exact inferInstance

theorem filtro_difiere (adaptada : List (Estado × Accion))
    (p : Estado × Accion) :
    (match adaptada.lookup p.1 with
     | some a' => a' != p.2
     | none => true) = decide (difiere adaptada p) := by
  rcases hl : adaptada.lookup p.1 with _ | a'
  · simp [difiere, hl]
  · by_cases h : a' = p.2
    · simp [difiere, hl, h]
    · simp [difiere, hl, h]

/-- The source's filter-count equals the cardinality of the set of changed
baseline entries (states, since the baseline's keys are duplicate-free). -/
theorem cuenta_cambios_eq (base adaptada : List (Estado × Accion))
    (hnd : (base.map Prod.fst).Nodup) :
    (base.filter (fun p =>
      match adaptada.lookup p.1 with
      | some a' => a' != p.2
      | none => true)).length =
    (base.toFinset.filter (difiere adaptada)).card := by
  have hbase : base.Nodup := List.Nodup.of_map Prod.fst hnd
  have h1 : (base.filter (fun p =>
      match adaptada.lookup p.1 with
      | some a' => a' != p.2
      | none => true)) = base.filter (fun p => decide (difiere adaptada p)) := by
    apply List.filter_congr
    intro p _
    exact filtro_difiere adaptada p
  rw [h1]
  rw [← List.toFinset_card_of_nodup (hbase.filter _)]
  congr 1
  rw [List.toFinset_filter]
  apply Finset.filter_congr
  intro p _
  simp

theorem etiqueta_80 : etiqueta (4/5) = "80%" := by
  unfold etiqueta
  rw [show ⌊(4/5 : ℚ) * 100⌋ = 80 from by norm_num]
  decide

theorem etiqueta_90 : etiqueta (9/10) = "90%" := by
  unfold etiqueta
  rw [show ⌊(9/10 : ℚ) * 100⌋ = 90 from by norm_num]
  decide

theorem etiqueta_70 : etiqueta (7/10) = "70%" := by
  unfold etiqueta
  rw [show ⌊(7/10 : ℚ) * 100⌋ = 70 from by norm_num]
  decide

theorem etiqueta_50 : etiqueta (1/2) = "50%" := by
  unfold etiqueta
  rw [show ⌊(1/2 : ℚ) * 100⌋ = 50 from by norm_num]
  decide

/-- C8: the robustness evaluator emits exactly one (label, count) pair per
catalogued noise triple, in catalogue order; the label renders the centre
probability as a percentage, and each count is the number of baseline
entries (states, the keys being duplicate-free) whose adapted action differs
or is missing.  The baseline is passed by reference and the embedding is a
pure function of it — it is never mutated. -/
theorem evaluar_robustez_por_catalogo (fuel : Nat)
    (base : List (Estado × Accion)) (lam : ℚ)
    (hnd : (base.map Prod.fst).Nodup) :
    evaluar_robustez fuel base lam =
      [("80%", (base.toFinset.filter (difiere
          ((value_iteration fuel lam (1/100) (some (modeloFn
            (construir_modelo_ruido (1/10) (4/5) (1/10))))).2))).card),
       ("90%", (base.toFinset.filter (difiere
          ((value_iteration fuel lam (1/100) (some (modeloFn
            (construir_modelo_ruido (1/20) (9/10) (1/20))))).2))).card),
       ("70%", (base.toFinset.filter (difiere
          ((value_iteration fuel lam (1/100) (some (modeloFn
            (construir_modelo_ruido (3/20) (7/10) (3/20))))).2))).card),
       ("50%", (base.toFinset.filter (difiere
          ((value_iteration fuel lam (1/100) (some (modeloFn
            (construir_modelo_ruido (1/4) (1/2) (1/4))))).2))).card)] := by
  unfold evaluar_robustez ARR_TPL_F64X3_MODELOS_RUIDO
  simp only [List.foldl_cons, List.foldl_nil, List.nil_append,
    List.cons_append, List.append_nil, List.singleton_append]
  rw [cuenta_cambios_eq base _ hnd, cuenta_cambios_eq base _ hnd,
    cuenta_cambios_eq base _ hnd, cuenta_cambios_eq base _ hnd]
  rw [etiqueta_80, etiqueta_90, etiqueta_70, etiqueta_50]

/-- Witness for `evaluar_robustez_por_catalogo` at the one-entry baseline
policy ("S0" ↦ "N"), fuel 0 and λ = 9/10. -/
theorem evaluar_robustez_por_catalogo_witness :
    (([("S0", "N")] : List (Estado × Accion)).map Prod.fst).Nodup ∧
    evaluar_robustez 0 [("S0", "N")] (9/10) =
      [("80%", (([("S0", "N")] : List (Estado × Accion)).toFinset.filter
          (difiere ((value_iteration 0 (9/10) (1/100) (some (modeloFn
            (construir_modelo_ruido (1/10) (4/5) (1/10))))).2))).card),
       ("90%", (([("S0", "N")] : List (Estado × Accion)).toFinset.filter
          (difiere ((value_iteration 0 (9/10) (1/100) (some (modeloFn
            (construir_modelo_ruido (1/20) (9/10) (1/20))))).2))).card),
       ("70%", (([("S0", "N")] : List (Estado × Accion)).toFinset.filter
          (difiere ((value_iteration 0 (9/10) (1/100) (some (modeloFn
            (construir_modelo_ruido (3/20) (7/10) (3/20))))).2))).card),
       ("50%", (([("S0", "N")] : List (Estado × Accion)).toFinset.filter
          (difiere ((value_iteration 0 (9/10) (1/100) (some (modeloFn
            (construir_modelo_ruido (1/4) (1/2) (1/4))))).2))).card)] :=
  ⟨by decide, evaluar_robustez_por_catalogo 0 [("S0", "N")] (9/10) (by decide)⟩

/-- C6: for every action, the probabilities over effective directions sum to
1 within 1e-9, both in the default model `prob_transicion` and in every model
`construir_modelo_ruido izq centro der` with izq + centro + der = 1 (the sums
are exactly 1 in exact arithmetic). -/
theorem modelos_transicion_filas_suman_uno :
    (∀ a ∈ acciones, |sumaFila prob_transicion a - 1| ≤ 1/1000000000) ∧
    (∀ izq centro der : ℚ, izq + centro + der = 1 →
      ∀ a ∈ acciones,
        |sumaFila (construir_modelo_ruido izq centro der) a - 1| ≤ 1/1000000000) := by
  constructor
  · intro a ha
    fin_cases ha <;>
      · simp [sumaFila, prob_transicion, List.lookup]
        norm_num
  · intro izq centro der h a ha
    fin_cases ha <;>
      · simp [sumaFila, construir_modelo_ruido, List.lookup]
        rw [abs_le]
        constructor <;> linarith

/-- C1: during a sweep, the table written for any non-obstacle, non-goal
state `s` and any action `a` is
`Q_new(s,a) = reward(s) + λ · Σ_d P(d|a) · max_a' Q_old(dest(s,d), a')`,
where every `Q_old` read is of `q`, the table fixed before the sweep began
(the double-buffered snapshot), and `destino` resolves out-of-bounds and
obstacle moves to `s` itself. -/
theorem barrido_calcula_bellman_desde_tabla_anterior (lam : ℚ) (m : Modelo)
    (q : QTable) (s : Estado) (f c : Nat) (a : Accion)
    (hs : s ∈ listaEstados) (hobs : s ∉ OBSTACULOS) (hmeta : s ≠ ESTADO_META)
    (ha : a ∈ acciones) (hpos : obtener_posicion s = .ok (f, c)) :
    (barrido lam m q).1 s a =
      recompensa s +
        lam * ((m a).map
          (fun dp => dp.2 * max_q_destino q (destino s f c dp.1))).sum := by
  rw [barrido_fst]
  have hescr : escribible s :=
    ⟨hobs, Or.inr (by simp [hpos, Except.isOk, Except.toBool])⟩
  rw [if_pos ⟨hs, hescr, ha⟩]
  unfold valorFila
  rw [if_neg hmeta, hpos]
  show q_final lam m q s f c a = _
  unfold q_final
  rw [foldl_add_eq_sum, zero_add]

/-- Witness for `barrido_calcula_bellman_desde_tabla_anterior` at s = "S0",
a = "N", the zero table, λ = 9/10 and the default model. -/
theorem barrido_calcula_bellman_witness :
    "S0" ∈ listaEstados ∧ "S0" ∉ OBSTACULOS ∧ "S0" ≠ ESTADO_META ∧
    "N" ∈ acciones ∧ obtener_posicion "S0" = .ok (0, 0) ∧
    (barrido (9/10) modelo_base (fun _ _ => 0)).1 "S0" "N" =
      recompensa "S0" +
        (9/10) * ((modelo_base "N").map
          (fun dp => dp.2 *
            max_q_destino (fun _ _ => 0) (destino "S0" 0 0 dp.1))).sum :=
  ⟨by decide, by decide, by decide, by decide, by decide,
    barrido_calcula_bellman_desde_tabla_anterior (9/10) modelo_base
      (fun _ _ => 0) "S0" 0 0 "N" (by decide) (by decide) (by decide)
      (by decide) (by decide)⟩

/-- Witness for `modelos_transicion_filas_suman_uno`: the default row for "N"
and the (0.25, 0.5, 0.25) noise row for "E". -/
theorem modelos_transicion_filas_suman_uno_witness :
    ("N" : Accion) ∈ acciones ∧
    (1/4 : ℚ) + 1/2 + 1/4 = 1 ∧
    |sumaFila prob_transicion "N" - 1| ≤ 1/1000000000 ∧
    |sumaFila (construir_modelo_ruido (1/4) (1/2) (1/4)) "E" - 1| ≤ 1/1000000000 := by
  refine ⟨by decide, by norm_num, ?_, ?_⟩
  · exact modelos_transicion_filas_suman_uno.1 "N" (by decide)
  · exact modelos_transicion_filas_suman_uno.2 (1/4) (1/2) (1/4) (by norm_num)
      "E" (by decide)

end Robotica
